import Mathlib

/-!
# Verification of the Parsr core (pdfminer backend, link detection, TOC, module naming)

Shallow embedding of the repository's TypeScript sources:
* `src/server/src/input/pdfminer/pdfminer.ts`
* `src/server/src/processing/LinkDetectionModule/LinkDetectionModule.ts`
* `src/server/src/types/DocumentRepresentation/TableOfContents.ts`
* the `ServerManager` configuration manager (`src/unnamed/part_000`)

Numbers coming from PDF geometry are modelled as rationals (`ℚ`); JS strings as
`String` (or `List Char` where character-level reasoning is needed); JS
`undefined`-able values as `Option`; thrown exceptions as `Except`/`Option`
errors.  Classes of the document representation that are not part of the given
sources (`Font.isEqual`, `BoundingBox.merge`, `BoundingBox.getPercentageOfInclusion`,
`Document.getAllElements`, `Word.toString`) are modelled from the spec, and are
marked as such in their doc comments.
-/

namespace Parsr

/-- Font of a character.  The record fields follow the `new Font(...)` call in
`breakLineIntoWords` (`pdfminer.ts`): name, size, weight, italic/underline flags
and a colour string. -/
structure Font where
  name : String
  size : ℚ
  weight : String
  isItalic : Bool
  isUnderline : Bool
  color : String
deriving DecidableEq, Repr, Inhabited

/-- Modelled from the spec: the "undefined font" sentinel `Font.undefinedFont`
returned by `getMostCommonFont` when no basket exists (the `Font` class itself
is not among the given sources). -/
def Font.undefinedFont : Font :=
  { name := "undefined", size := 0, weight := "medium",
    isItalic := false, isUnderline := false, color := "#000000" }

/-- Modelled from the spec: `Font.isEqual` is structural equality — "two fonts
are equal iff all fields match exactly" (spec §3). -/
def Font.isEqual (a b : Font) : Bool :=
  decide (a = b)

/-- Bounding box, `{left, top, width, height}` with top-left origin (spec §3);
constructed by `new BoundingBox(left, top, width, height)` in the sources. -/
structure BoundingBox where
  left : ℚ
  top : ℚ
  width : ℚ
  height : ℚ
deriving DecidableEq, Repr

namespace BoundingBox

/-- Modelled from the spec: `BoundingBox.merge` returns the smallest box whose
four edges each equal the corresponding extreme edge among the inputs (spec §8).
The `BoundingBox` class is not among the given sources.  On an empty input it
returns the degenerate all-zero box. -/
def merge (boxes : List BoundingBox) : BoundingBox :=
  match boxes with
  | [] => ⟨0, 0, 0, 0⟩
  | b :: bs =>
    let l := (bs.map left).foldl min b.left
    let t := (bs.map top).foldl min b.top
    let r := (bs.map (fun x => x.left + x.width)).foldl max (b.left + b.width)
    let bo := (bs.map (fun x => x.top + x.height)).foldl max (b.top + b.height)
    ⟨l, t, r - l, bo - t⟩

/-- Modelled from the spec: `overlapRatio(a, b)` = area(intersection(a,b)) /
area(a) — asymmetric, measures how much of `a` is covered by `b` (spec §3).
This is the `BoundingBox.getPercentageOfInclusion` used by the link-detection
module; the class is not among the given sources.  Division by a zero area
follows Lean's `ℚ` convention (`x / 0 = 0`). -/
def getPercentageOfInclusion (a b : BoundingBox) : ℚ :=
  let interW := min (a.left + a.width) (b.left + b.width) - max a.left b.left
  let interH := min (a.top + a.height) (b.top + b.height) - max a.top b.top
  if 0 < interW ∧ 0 < interH then (interW * interH) / (a.width * a.height) else 0

end BoundingBox

/-- A character: box, glyph content and font (`new Character(box, content, font)`
in `breakLineIntoWords`). -/
structure Character where
  box : BoundingBox
  content : String
  font : Font
deriving DecidableEq, Repr

/-- Word properties attached by cleaner modules.  The source uses an open
property bag (`word.properties`); the link-detection module only ever touches
`link` and `targetURL`, which is all the claims need. -/
structure WordProperties where
  link : Option String
  targetURL : Option String
deriving DecidableEq, Repr

/-- A word: merged box, ordered characters, dominant font, property bag
(`new Word(box, chars, font)` in `breakLineIntoWords`; properties start empty). -/
structure Word where
  box : BoundingBox
  characters : List Character
  font : Font
  properties : WordProperties
deriving DecidableEq, Repr

/-- Modelled from the spec: `Word.toString` produces the word's plain-text
string (spec §3, "produce plain-text string"); the `Word` class is not among
the given sources.  It is the concatenation of the characters' contents. -/
def Word.toStr (w : Word) : String :=
  String.join (w.characters.map Character.content)

/-- An image element: box and the side-channel source file
(`new Image(box, src)` in `interpretImages`). -/
structure Image where
  box : BoundingBox
  src : String
deriving DecidableEq, Repr

/-- Page elements relevant to the given sources: words and images. -/
inductive Element where
  | word (w : Word)
  | image (img : Image)
deriving DecidableEq, Repr

/-- A page: number, elements and media box (`new Page(number, elements, bbox)`
in `getPage`). -/
structure Page where
  pageNumber : ℚ
  elements : List Element
  box : BoundingBox
deriving DecidableEq, Repr

/-- A document: pages plus the input file it came from
(`new Document(pages, inputFile)` in `execute`). -/
structure Document where
  pages : List Page
  inputFile : String
deriving DecidableEq, Repr

/-- Modelled from the spec: `Document.getAllElements` flattens the elements of
all pages (the `Document` class is not among the given sources; `getPage` uses
it to collect the elements of the nested OCR documents). -/
def Document.getAllElements (d : Document) : List Element :=
  d.pages.flatMap Page.elements

/-! ## `getMostCommonFont` (`pdfminer.ts`, lines 216–244) -/

/-- One step of the basket-filling loop of `getMostCommonFont`: the source
iterates over all baskets, pushing `font` into every basket whose first element
`isEqual` it (the `forEach` has no break), and opens a new basket `[font]` when
none matched. -/
def addFont (baskets : List (List Font)) (font : Font) : List (List Font) :=
  let matchesFont : List Font → Bool := fun basket =>
    0 < basket.length && (basket.headI.isEqual font)
  if baskets.any matchesFont then
    baskets.map (fun basket => if matchesFont basket then basket ++ [font] else basket)
  else
    baskets ++ [[font]]

/-- The basket list built by `getMostCommonFont`'s `fonts.forEach` loop. -/
def buildBaskets (fonts : List Font) : List (List Font) :=
  fonts.foldl addFont []

/-- Head of the source's `baskets.sort((a, b) => b.length - a.length)` result:
JS `Array.prototype.sort` is stable (ES2019), so the head of the sorted array is
the earliest basket of maximal length.  Only `baskets[0]` of the sorted array is
ever read, so the sort is modelled by selecting that basket directly. -/
def pickLargest : List (List Font) → Option (List Font)
  | [] => none
  | b :: bs => some (bs.foldl (fun best c => if best.length < c.length then c else best) b)

/-- `getMostCommonFont` (`pdfminer.ts`).  The initial
`theFonts.reduce((a, b) => a.concat(b), [])` appends each font to an empty
array (JS `concat` with a non-array argument appends the element), i.e. copies
the list; it is modelled by the same fold. -/
def getMostCommonFont (theFonts : List Font) : Font :=
  let fonts : List Font := theFonts.foldl (fun a b => a ++ [b]) []
  let baskets := buildBaskets fonts
  match pickLargest baskets with
  | some (f :: _) => f
  | some [] => Font.undefinedFont
  | none => Font.undefinedFont

/-! ### Analysis of `getMostCommonFont` -/

/-- The distinct fonts of a list, in order of first occurrence. -/
def firstOccs (fs : List Font) : List Font :=
  fs.foldl (fun acc f => if f ∈ acc then acc else acc ++ [f]) []

theorem firstOccs_append_singleton (p : List Font) (f : Font) :
    firstOccs (p ++ [f]) =
      if f ∈ firstOccs p then firstOccs p else firstOccs p ++ [f] := by
  simp [firstOccs, List.foldl_append]

theorem mem_firstOccs (p : List Font) (a : Font) : a ∈ firstOccs p ↔ a ∈ p := by
  induction p using List.reverseRecOn with
  | nil => simp [firstOccs]
  | append_singleton p f ih =>
    rw [firstOccs_append_singleton]
    by_cases hf : f ∈ firstOccs p
    · rw [if_pos hf]
      constructor
      · intro h; exact List.mem_append_left _ (ih.1 h)
      · intro h
        rcases List.mem_append.1 h with h | h
        · exact ih.2 h
        · rw [List.mem_singleton.1 h]; exact hf
    · rw [if_neg hf]
      simp only [List.mem_append, List.mem_singleton, ih]

theorem headI_replicate_pos {n : ℕ} (h : 0 < n) (a : Font) :
    (List.replicate n a).headI = a := by
  cases n with
  | zero => omega
  | succ m => rfl

theorem count_pos_of_mem {p : List Font} {a : Font} (h : a ∈ p) : 0 < p.count a :=
  List.count_pos_iff.2 h

theorem buildBaskets_eq (p : List Font) :
    buildBaskets p = (firstOccs p).map (fun g => List.replicate (p.count g) g) := by
  induction p using List.reverseRecOn with
  | nil => rfl
  | append_singleton p f ih =>
    have hstep : buildBaskets (p ++ [f]) = addFont (buildBaskets p) f := by
      simp [buildBaskets, List.foldl_append]
    rw [hstep, ih]
    set B := fun g => List.replicate (p.count g) g with hB
    have hmatch : ∀ g ∈ firstOccs p,
        (decide (0 < (B g).length) && ((B g).headI.isEqual f)) = decide (g = f) := by
      intro g hg
      have hgp : g ∈ p := (mem_firstOccs p g).1 hg
      have hpos : 0 < p.count g := count_pos_of_mem hgp
      have hlen : (B g).length = p.count g := by simp [hB]
      have hhead : (B g).headI = g := headI_replicate_pos hpos g
      rw [hlen, hhead, Font.isEqual, decide_eq_true hpos, Bool.true_and]
    have hany : ((firstOccs p).map B).any
        (fun basket => decide (0 < basket.length) && (basket.headI.isEqual f)) =
        decide (f ∈ p) := by
      by_cases hf : f ∈ p
      · rw [decide_eq_true hf, List.any_eq_true]
        refine ⟨B f, List.mem_map_of_mem B ((mem_firstOccs p f).2 hf), ?_⟩
        show (decide (0 < (B f).length) && ((B f).headI.isEqual f)) = true
        rw [hmatch f ((mem_firstOccs p f).2 hf)]
        exact decide_eq_true rfl
      · rw [decide_eq_false hf, Bool.eq_false_iff]
        intro hcontra
        rw [List.any_eq_true] at hcontra
        obtain ⟨b, hb, hbt⟩ := hcontra
        obtain ⟨g, hg, rfl⟩ := List.mem_map.1 hb
        have : (decide (0 < (B g).length) && ((B g).headI.isEqual f)) = true := hbt
        rw [hmatch g hg, decide_eq_true_eq] at this
        exact hf (this ▸ (mem_firstOccs p g).1 hg)
    rw [addFont]
    simp only []
    rw [hany, firstOccs_append_singleton]
    by_cases hf : f ∈ p
    · rw [decide_eq_true hf, if_pos ((mem_firstOccs p f).2 hf), if_pos rfl, List.map_map]
      apply List.map_congr_left
      intro g hg
      show (if (decide (0 < (B g).length) && ((B g).headI.isEqual f)) = true
        then B g ++ [f] else B g) = List.replicate ((p ++ [f]).count g) g
      by_cases hgf : g = f
      · subst hgf
        have hcnt : (p ++ [g]).count g = p.count g + 1 := by
          simp [List.count_append]
        simp only [hmatch g hg, decide_eq_true rfl, if_pos rfl, hcnt, hB]
        exact (List.replicate_succ' (p.count g) g).symm
      · have hcnt : (p ++ [f]).count g = p.count g := by
          rw [List.count_append, List.count_singleton', if_neg (fun h => hgf h.symm),
            Nat.add_zero]
        simp only [hmatch g hg, decide_eq_false hgf, hcnt, hB]
        exact if_neg (by simp)
    · rw [decide_eq_false hf, if_neg (fun h => hf ((mem_firstOccs p f).1 h)), if_neg (by simp),
        List.map_append]
      congr 1
      · apply List.map_congr_left
        intro g hg
        have hgp : g ∈ p := (mem_firstOccs p g).1 hg
        have hgf : g ≠ f := fun h => hf (h ▸ hgp)
        have hcnt : (p ++ [f]).count g = p.count g := by
          rw [List.count_append, List.count_singleton', if_neg (fun h => hgf h.symm),
            Nat.add_zero]
        show B g = List.replicate ((p ++ [f]).count g) g
        rw [hcnt, hB]
      · have hc0 : p.count f = 0 := List.count_eq_zero.2 hf
        have hcnt : (p ++ [f]).count f = 1 := by
          simp [List.count_append, hc0]
        rw [List.map_singleton, hcnt]
        rfl

/-- First maximum of a nonempty list under a `Nat`-valued measure, matching the
head of a stable descending sort: an element only replaces the running best
when its measure is strictly larger. -/
def selectFirstMax (c : Font → ℕ) (d : Font) (ds : List Font) : Font :=
  ds.foldl (fun best x => if c best < c x then x else best) d

theorem selectFirstMax_cons (c : Font → ℕ) (d y : Font) (ds : List Font) :
    selectFirstMax c d (y :: ds) = selectFirstMax c (if c d < c y then y else d) ds := rfl

theorem selectFirstMax_mem (c : Font → ℕ) (d : Font) (ds : List Font) :
    selectFirstMax c d ds ∈ d :: ds := by
  induction ds generalizing d with
  | nil => exact List.mem_singleton.2 rfl
  | cons y ys ih =>
    rw [selectFirstMax_cons]
    by_cases h : c d < c y
    · rw [if_pos h]
      rcases List.mem_cons.1 (ih y) with h' | h'
      · rw [h']; exact List.mem_cons_of_mem _ (List.mem_cons_self _ _)
      · exact List.mem_cons_of_mem _ (List.mem_cons_of_mem _ h')
    · rw [if_neg h]
      rcases List.mem_cons.1 (ih d) with h' | h'
      · rw [h']; exact List.mem_cons_self _ _
      · exact List.mem_cons_of_mem _ (List.mem_cons_of_mem _ h')

theorem selectFirstMax_is_max (c : Font → ℕ) (d : Font) (ds : List Font) :
    ∀ x ∈ d :: ds, c x ≤ c (selectFirstMax c d ds) := by
  induction ds generalizing d with
  | nil =>
    intro x hx
    rw [List.mem_singleton.1 hx]
    exact Nat.le_refl _
  | cons y ys ih =>
    intro x hx
    rw [selectFirstMax_cons]
    rcases List.mem_cons.1 hx with h1 | hx'
    · by_cases h : c d < c y
      · rw [if_pos h, h1]
        exact Nat.le_trans (Nat.le_of_lt h) (ih y y (List.mem_cons_self _ _))
      · rw [if_neg h, h1]
        exact ih d d (List.mem_cons_self _ _)
    · rcases List.mem_cons.1 hx' with h2 | hx''
      · by_cases h : c d < c y
        · rw [if_pos h, h2]
          exact ih y y (List.mem_cons_self _ _)
        · rw [if_neg h, h2]
          exact Nat.le_trans (Nat.le_of_not_lt h) (ih d d (List.mem_cons_self _ _))
      · by_cases h : c d < c y
        · rw [if_pos h]
          exact ih y x (List.mem_cons_of_mem _ hx'')
        · rw [if_neg h]
          exact ih d x (List.mem_cons_of_mem _ hx'')

theorem selectFirstMax_first (c : Font → ℕ) (d : Font) (ds : List Font) :
    ∃ l₁ l₂, d :: ds = l₁ ++ selectFirstMax c d ds :: l₂ ∧
      ∀ x ∈ l₁, c x < c (selectFirstMax c d ds) := by
  induction ds generalizing d with
  | nil => exact ⟨[], [], rfl, by intro x hx; exact absurd hx (List.not_mem_nil x)⟩
  | cons y ys ih =>
    rw [selectFirstMax_cons]
    by_cases h : c d < c y
    · rw [if_pos h]
      obtain ⟨l₁, l₂, heq, hlt⟩ := ih y
      refine ⟨d :: l₁, l₂, by rw [List.cons_append, ← heq], ?_⟩
      intro x hx
      rcases List.mem_cons.1 hx with rfl | hx'
      · exact Nat.lt_of_lt_of_le h (selectFirstMax_is_max c y ys y (List.mem_cons_self _ _))
      · exact hlt x hx'
    · rw [if_neg h]
      obtain ⟨l₁, l₂, heq, hlt⟩ := ih d
      cases l₁ with
      | nil =>
        rw [List.nil_append] at heq
        have hd : d = selectFirstMax c d ys := (List.cons_eq_cons.1 heq).1
        refine ⟨[], y :: ys, ?_, by intro x hx; exact absurd hx (List.not_mem_nil x)⟩
        rw [List.nil_append, ← hd]
      | cons a l₁' =>
        rw [List.cons_append] at heq
        have ha : a = d := (List.cons_eq_cons.1 heq).1.symm
        have hys : ys = l₁' ++ selectFirstMax c d ys :: l₂ :=
          (List.cons_eq_cons.1 heq).2
        refine ⟨d :: y :: l₁', l₂, by rw [List.cons_append, List.cons_append, ← hys], ?_⟩
        intro x hx
        rcases List.mem_cons.1 hx with rfl | hx'
        · exact hlt x (ha ▸ List.mem_cons_self _ _)
        · rcases List.mem_cons.1 hx' with rfl | hx''
          · exact Nat.lt_of_le_of_lt (Nat.le_of_not_lt h)
              (hlt d (ha ▸ List.mem_cons_self _ _))
          · exact hlt x (List.mem_cons_of_mem _ hx'')

theorem pickLargest_map_replicate (c : Font → ℕ) (d : Font) (ds : List Font)
    (B : Font → List Font) (hc : ∀ g, (B g).length = c g) :
    pickLargest ((d :: ds).map B) = some (B (selectFirstMax c d ds)) := by
  rw [List.map_cons, pickLargest, List.foldl_map]
  congr 1
  induction ds generalizing d with
  | nil => rfl
  | cons y ys ih =>
    rw [List.foldl_cons, selectFirstMax_cons]
    rw [hc d, hc y]
    by_cases h : c d < c y
    · rw [if_pos h, if_pos h]; exact ih y
    · rw [if_neg h, if_neg h]; exact ih d

theorem pairwise_firstOccs (p : List Font) :
    (firstOccs p).Pairwise (fun a b => p.indexOf a < p.indexOf b) := by
  induction p using List.reverseRecOn with
  | nil => simp [firstOccs]
  | append_singleton p f ih =>
    rw [firstOccs_append_singleton]
    by_cases hf : f ∈ firstOccs p
    · rw [if_pos hf]
      refine ih.imp_of_mem ?_
      intro a b ha hb hab
      have hap : a ∈ p := (mem_firstOccs p a).1 ha
      have hbp : b ∈ p := (mem_firstOccs p b).1 hb
      rw [List.indexOf_append_of_mem hap, List.indexOf_append_of_mem hbp]
      exact hab
    · rw [if_neg hf]
      rw [List.pairwise_append]
      refine ⟨ih.imp_of_mem ?_, List.pairwise_singleton _ _, ?_⟩
      · intro a b ha hb hab
        have hap : a ∈ p := (mem_firstOccs p a).1 ha
        have hbp : b ∈ p := (mem_firstOccs p b).1 hb
        rw [List.indexOf_append_of_mem hap, List.indexOf_append_of_mem hbp]
        exact hab
      · intro a ha b hb
        rw [List.mem_singleton.1 hb]
        have hap : a ∈ p := (mem_firstOccs p a).1 ha
        have hfp : f ∉ p := fun h => hf ((mem_firstOccs p f).2 h)
        rw [List.indexOf_append_of_mem hap, List.indexOf_append_of_not_mem hfp]
        calc p.indexOf a < p.length := List.indexOf_lt_length.2 hap
          _ ≤ p.length + List.indexOf f [f] := Nat.le_add_right _ _

theorem foldl_append_singleton_eq (fs : List Font) :
    fs.foldl (fun a b => a ++ [b]) [] = fs := by
  have h : ∀ (l acc : List Font), l.foldl (fun a b => a ++ [b]) acc = acc ++ l := by
    intro l
    induction l with
    | nil => intro acc; simp
    | cons x xs ih => intro acc; simp [List.foldl_cons, ih]
  simpa using h fs []

/-- C3: the dominant-font computation `getMostCommonFont` returns the
undefined-font sentinel on an empty sequence; on any sequence containing a font
`f` whose occurrence count is maximal and, among equally frequent fonts, whose
first occurrence appears earliest, it returns exactly `f` (structural equality).
This covers both the strict-plurality case (the tie hypothesis is vacuous) and
the tie case (the earlier of two equally frequent fonts wins). -/
theorem claim_C3 :
    getMostCommonFont [] = Font.undefinedFont ∧
    ∀ (fs : List Font) (f : Font), f ∈ fs →
      (∀ g ∈ fs, fs.count g ≤ fs.count f) →
      (∀ g ∈ fs, fs.count g = fs.count f → g ≠ f → fs.indexOf f < fs.indexOf g) →
      getMostCommonFont fs = f := by
  refine ⟨rfl, ?_⟩
  intro fs f hmem hmax htie
  obtain ⟨d, ds, hcons⟩ : ∃ d ds, firstOccs fs = d :: ds := by
    cases h : firstOccs fs with
    | nil =>
      exfalso
      have hf := (mem_firstOccs fs f).2 hmem
      rw [h] at hf
      exact List.not_mem_nil f hf
    | cons d ds => exact ⟨d, ds, rfl⟩
  set r := selectFirstMax (fun g => fs.count g) d ds with hr
  have hpick : pickLargest (buildBaskets fs) =
      some (List.replicate (fs.count r) r) := by
    rw [buildBaskets_eq, hcons]
    exact pickLargest_map_replicate (fun g => fs.count g) d ds _
      (fun g => List.length_replicate _ _)
  have hrmem : r ∈ firstOccs fs := by
    rw [hcons]; exact selectFirstMax_mem _ d ds
  have hrfs : r ∈ fs := (mem_firstOccs fs r).1 hrmem
  have hrpos : 0 < fs.count r := count_pos_of_mem hrfs
  have hval : getMostCommonFont fs = r := by
    obtain ⟨m, hm⟩ : ∃ m, fs.count r = m + 1 := ⟨fs.count r - 1, by omega⟩
    simp only [getMostCommonFont]
    rw [foldl_append_singleton_eq fs, hpick, hm, List.replicate_succ]
  have hffo : f ∈ firstOccs fs := (mem_firstOccs fs f).2 hmem
  have hcf : fs.count f ≤ fs.count r := by
    have := selectFirstMax_is_max (fun g => fs.count g) d ds f (hcons ▸ hffo)
    exact this
  have hceq : fs.count r = fs.count f := Nat.le_antisymm (hmax r hrfs) hcf
  rw [hval]
  by_contra hne
  have hlt : fs.indexOf f < fs.indexOf r := htie r hrfs hceq hne
  obtain ⟨l₁, l₂, heq, hfirst⟩ := selectFirstMax_first (fun g => fs.count g) d ds
  have hdecomp : firstOccs fs = l₁ ++ r :: l₂ := by rw [hcons]; exact heq
  rw [hdecomp] at hffo
  rcases List.mem_append.1 hffo with hf1 | hf2
  · have : fs.count f < fs.count r := hfirst f hf1
    omega
  · rcases List.mem_cons.1 hf2 with h | hf3
    · exact hne h.symm
    · have hpw := pairwise_firstOccs fs
      rw [hdecomp] at hpw
      have h2 := (List.pairwise_append.1 hpw).2.1
      have hrf : fs.indexOf r < fs.indexOf f := (List.pairwise_cons.1 h2).1 f hf3
      omega

/-- Example fonts used by concrete witnesses. -/
def fontExA : Font :=
  { name := "Helvetica", size := 12, weight := "medium",
    isItalic := false, isUnderline := false, color := "#000000" }

/-- A second example font, differing from `fontExA` in its name. -/
def fontExB : Font :=
  { fontExA with name := "Times-Bold" }

theorem claim_C3_witness :
    getMostCommonFont [fontExA, fontExB, fontExA] = fontExA :=
  claim_C3.2 [fontExA, fontExB, fontExA] fontExA (by decide) (by decide) (by decide)

/-! ## Pdfminer text lines and fake-space detection (`pdfminer.ts`, lines 272–410) -/

/-- Attributes of a `<text>` slot as consumed by `breakLineIntoWords`
(`char._attr`): font name, size, bounding box and `ncolour` components.  The
numeric XML attribute strings are modelled pre-parsed into rationals (the
string-to-number conversion belongs to the out-of-scope XML layer). -/
structure PdfminerTextAttr where
  font : String
  size : ℚ
  bbox : List ℚ
  ncolour : List ℚ
deriving DecidableEq, Repr

/-- One `<text>` slot of a pdfminer text line (`PdfminerText`): `content`
models the element's text (`char._`, `none` when absent) and `attr` the
attribute record (`char._attr`, `none` when absent). -/
structure PdfminerText where
  content : Option String
  attr : Option PdfminerTextAttr
deriving DecidableEq, Repr

/-- A pdfminer text line (`PdfminerTextline`): its ordered `<text>` slots. -/
structure PdfminerTextline where
  text : List PdfminerText
deriving DecidableEq, Repr

/-- `thereAreFakeSpaces` (`pdfminer.ts`): collects the positions of empty slots
with attributes and of empty slots without attributes, and reports whether some
attribute-less empty slot is immediately followed (position + 1) by an empty
slot that carries attributes.  The source's flag-setting `forEach` is the
`any`. -/
def thereAreFakeSpaces (lines : PdfminerTextline) : Bool :=
  let emptyWithAttr : List ℕ :=
    ((lines.text.enum.filter
      (fun w => w.2.content = none ∧ w.2.attr ≠ none)).map (fun w => w.1))
  let emptyWithNoAttr : List ℕ :=
    ((lines.text.enum.filter
      (fun w => w.2.content = none ∧ w.2.attr = none)).map (fun w => w.1))
  emptyWithNoAttr.any (fun pos => emptyWithAttr.contains (pos + 1))

/-- `isFakeChar` (`pdfminer.ts`): an empty attribute-less slot is dropped
whenever the line-level `fakeSpacesInLine` flag is set. -/
def isFakeChar (word : PdfminerText) (fakeSpacesInLine : Bool) : Bool :=
  fakeSpacesInLine && word.content = none && word.attr = none

/-- Line-level characterisation of `thereAreFakeSpaces`: it is `true` iff the
line has an empty attribute-less slot at some position `i` and an empty slot
with attributes at position `i + 1`. -/
theorem thereAreFakeSpaces_iff (line : PdfminerTextline) :
    thereAreFakeSpaces line = true ↔
      ∃ i s t, line.text.get? i = some s ∧ line.text.get? (i + 1) = some t ∧
        s.content = none ∧ s.attr = none ∧ t.content = none ∧ t.attr ≠ none := by
  unfold thereAreFakeSpaces
  rw [List.any_eq_true]
  constructor
  · rintro ⟨pos, hpos, hcont⟩
    obtain ⟨⟨i, s⟩, hmem, rfl⟩ := List.mem_map.1 hpos
    have hfil := List.mem_filter.1 hmem
    have hprops : s.content = none ∧ s.attr = none := by
      have := hfil.2
      simpa using this
    have hget : line.text.get? i = some s := by
      have := List.mk_mem_enum_iff_getElem?.1 hfil.1
      simpa [← List.get?_eq_getElem?] using this
    have hcont' : ((i, s).1 + 1) ∈
        ((line.text.enum.filter
          (fun w => w.2.content = none ∧ w.2.attr ≠ none)).map (fun w => w.1)) :=
      List.elem_iff.1 hcont
    obtain ⟨⟨j, t⟩, htmem, htfst⟩ := List.mem_map.1 hcont'
    have htfil := List.mem_filter.1 htmem
    have htprops : t.content = none ∧ t.attr ≠ none := by
      have := htfil.2
      simpa using this
    have hj : j = i + 1 := by simpa using htfst
    subst hj
    have htget : line.text.get? (i + 1) = some t := by
      have := List.mk_mem_enum_iff_getElem?.1 htfil.1
      simpa [← List.get?_eq_getElem?] using this
    exact ⟨i, s, t, hget, htget, hprops.1, hprops.2, htprops.1, htprops.2⟩
  · rintro ⟨i, s, t, hget, htget, hsc, hsa, htc, hta⟩
    refine ⟨i, ?_, ?_⟩
    · refine List.mem_map.2 ⟨(i, s), ?_, rfl⟩
      refine List.mem_filter.2 ⟨?_, ?_⟩
      · exact List.mk_mem_enum_iff_getElem?.2 (by simpa [← List.get?_eq_getElem?] using hget)
      · simp [hsc, hsa]
    · refine List.elem_iff.2 ?_
      refine List.mem_map.2 ⟨(i + 1, t), ?_, rfl⟩
      refine List.mem_filter.2 ⟨?_, ?_⟩
      · exact List.mk_mem_enum_iff_getElem?.2 (by simpa [← List.get?_eq_getElem?] using htget)
      · simp [htc, hta]

/-- C2 (amended): an empty attribute-less slot is excluded as a fake-space
artifact iff the line contains, anywhere, an empty attribute-less slot
immediately followed by an empty slot carrying font attributes.  The exclusion
is line-global: when the pattern occurs anywhere, every empty attribute-less
slot of the line is excluded, including word-boundary markers not followed by
an attribute-carrying empty slot. -/
theorem claim_C2 (line : PdfminerTextline) (w : PdfminerText) :
    isFakeChar w (thereAreFakeSpaces line) = true ↔
      (w.content = none ∧ w.attr = none ∧
        ∃ i s t, line.text.get? i = some s ∧ line.text.get? (i + 1) = some t ∧
          s.content = none ∧ s.attr = none ∧ t.content = none ∧ t.attr ≠ none) := by
  rw [isFakeChar]
  constructor
  · intro h
    simp only [Bool.and_eq_true, decide_eq_true_eq] at h
    obtain ⟨⟨hf, hc⟩, ha⟩ := h
    exact ⟨hc, ha, (thereAreFakeSpaces_iff line).1 hf⟩
  · rintro ⟨hc, ha, hex⟩
    simp only [Bool.and_eq_true, decide_eq_true_eq]
    exact ⟨⟨(thereAreFakeSpaces_iff line).2 hex, hc⟩, ha⟩

/-- Example slot attributes for concrete inputs. -/
def exAttr : PdfminerTextAttr :=
  { font := "Helvetica", size := 12, bbox := [0, 0, 1, 1], ncolour := [0] }

/-- A concrete character slot. -/
def slotOf (c : String) : PdfminerText :=
  { content := some c, attr := some exAttr }

/-- An empty slot with no attributes (a word-boundary marker or fake space). -/
def emptyNoAttrSlot : PdfminerText :=
  { content := none, attr := none }

/-- An empty slot that carries attributes. -/
def emptyWithAttrSlot : PdfminerText :=
  { content := none, attr := some exAttr }

/-- A line whose positions 1/2 form the fake-space pattern while position 4 is
an ordinary word-boundary marker (followed by a concrete character). -/
def fakeSpaceLine : PdfminerTextline :=
  { text := [slotOf "a", emptyNoAttrSlot, emptyWithAttrSlot,
             slotOf "b", emptyNoAttrSlot, slotOf "c"] }

/-- C2 counterexample: the empty attribute-less slot at position 4 of
`fakeSpaceLine` is immediately followed by the concrete slot `"c"`, so by the
claim it must be kept; yet `isFakeChar` excludes it, because the flag computed
by `thereAreFakeSpaces` is set by the unrelated pair at positions 1/2. -/
theorem claim_C2_counterexample :
    isFakeChar emptyNoAttrSlot (thereAreFakeSpaces fakeSpaceLine) = true ∧
    fakeSpaceLine.text.get? 4 = some emptyNoAttrSlot ∧
    fakeSpaceLine.text.get? 5 = some (slotOf "c") ∧
    (slotOf "c").content ≠ none := by
  decide

/-! ## `breakLineIntoWords` and `getPage` (`pdfminer.ts`, lines 140–376) -/

/-- `getValidCharacter` (`pdfminer.ts`): a glyph containing `(cid:` is an
unresolved code and is rendered as `?`. -/
def getValidCharacter (character : String) : String :=
  if character.containsSubstr "(cid:" then "?" else character

/-- `getBoundingBox` (`pdfminer.ts`): converts a pdfminer `x0,y0,x1,y1` box to
`{left, top, width, height}` with a vertical flip.  The comma-separated
attribute string arrives here already parsed into rationals (the string
splitting and `parseFloat` belong to the out-of-scope XML layer); pdfminer
boxes always carry four components, accessed here with `getD`. -/
def getBoundingBox (bbox : List ℚ) (pageHeight : ℚ := 0) (scalingFactor : ℚ := 1) :
    BoundingBox :=
  let values : List ℚ := bbox.map (fun v => v * scalingFactor)
  let width : ℚ := |values.getD 2 0 - values.getD 0 0|
  let height : ℚ := |values.getD 1 0 - values.getD 3 0|
  let left : ℚ := values.getD 0 0
  let top : ℚ := |pageHeight - values.getD 1 0| - height
  ⟨left, top, width, height⟩

/-- Hex rendering of one colour component, as in `ncolourToHex`'s
`Math.ceil(x * 255).toString(16)` padded to two digits.  Components are
non-negative in pdfminer output; `Int.toNat` models that. -/
def componentToHex (x : ℚ) : String :=
  let hex : String := String.mk (Nat.toDigits 16 (Int.ceil (x * 255)).toNat)
  if hex.length = 1 then "0" ++ hex else hex

/-- `ncolourToHex` (`pdfminer.ts`): the `ncolour` attribute's components arrive
already split and parsed (the bracket stripping and `split(',')` belong to the
XML string layer).  A missing green/blue component falls back to the red one
(`rgbColor[1] || rgbColor[0]` — component strings are never falsy when
present). -/
def ncolourToHex (color : List ℚ) : String :=
  let r : ℚ := color.getD 0 0
  let g : ℚ := color.getD 1 r
  let b : ℚ := color.getD 2 r
  "#" ++ componentToHex r ++ componentToHex g ++ componentToHex b

/-- The `notAllowedChars` list of `breakLineIntoWords`: the zero-width space. -/
def notAllowedChars : List String := ["​"]

/-- Fallback attribute record: a concrete (non-empty) slot always carries
attributes in pdfminer output — the source reads `char._attr` unguarded and
would throw otherwise — so the fallback is never hit on well-formed input. -/
def defaultTextAttr : PdfminerTextAttr :=
  { font := "", size := 0, bbox := [], ncolour := [0] }

/-- The slot-to-`Character` conversion inside `breakLineIntoWords`'s `map`:
an empty slot maps to `undefined` (`none`); a concrete slot builds a `Font`
from the attribute record (bold/italic/underline by case-insensitive substring
test on the font name, colour via `ncolourToHex`) and a `Character` with the
flipped bounding box and the validated glyph. -/
def convertChar (pageHeight scalingFactor : ℚ) (char : PdfminerText) :
    Option Character :=
  match char.content with
  | none => none
  | some content =>
    let a := char.attr.getD defaultTextAttr
    let font : Font :=
      { name := a.font
        size := a.size
        weight := if (a.font.toLower).containsSubstr "bold" then "bold" else "medium"
        isItalic := if (a.font.toLower).containsSubstr "italic" then true else false
        isUnderline := if (a.font.toLower).containsSubstr "underline" then true else false
        color := ncolourToHex a.ncolour }
    some ⟨getBoundingBox a.bbox pageHeight scalingFactor, getValidCharacter content, font⟩

/-- Is a character slot empty (`undefined`) or equal to the word separator?
(The trim conditions `chars[0] === undefined || chars[0].content === sep`.) -/
def isNoneOrSep (wordSeparator : String) (c : Option Character) : Bool :=
  match c with
  | none => true
  | some ch => ch.content = wordSeparator

/-- A `Word` from a non-empty character selection, as pushed by
`breakLineIntoWords`: merged box, the characters, their most common font, and
an empty property bag. -/
def mkWord (charSelection : List Character) : Word :=
  ⟨BoundingBox.merge (charSelection.map Character.box), charSelection,
    getMostCommonFont (charSelection.map Character.font), ⟨none, none⟩⟩

/-- `chars.slice(from, to).filter(c => c !== undefined)` followed by the
conditional `words.push`: a segment yields one word when non-empty, else none. -/
def segmentWords (chars : List (Option Character)) (a b : ℕ) : List Word :=
  let charSelection : List Character := (((chars.drop a).take (b - a)).filterMap id)
  if 0 < charSelection.length then [mkWord charSelection] else []

/-- The `for (let i = 0; i !== sepLocs.length; ++i)` loop bounds: segment
`(sepLocs[i] + 1, sepLocs[i+1])`, with the final segment ending at `len`. -/
def loopSegments (sepLocs : List ℕ) (len : ℕ) : List (ℕ × ℕ) :=
  match sepLocs with
  | [] => []
  | [a] => [(a + 1, len)]
  | a :: b :: rest => (a + 1, b) :: loopSegments (b :: rest) len

/-- `breakLineIntoWords` (`pdfminer.ts`).  Steps, as in the source: filter out
zero-width spaces and fake chars; convert slots; trim a leading/trailing empty
or separator slot; bail out on nothing left; record separator positions
(excluding position 0 and — vacuously — `chars.length`); partition into
segments and build one `Word` per non-empty segment. -/
def breakLineIntoWords (line : PdfminerTextline) (wordSeparator : String)
    (pageHeight : ℚ) (scalingFactor : ℚ := 1) : List Word :=
  let fakeSpaces := thereAreFakeSpaces line
  let kept : List PdfminerText := line.text.filter (fun char =>
    !(notAllowedChars.any (fun s => char.content = some s)) &&
    !(isFakeChar char fakeSpaces))
  let chars0 : List (Option Character) := kept.map (convertChar pageHeight scalingFactor)
  let chars1 : List (Option Character) :=
    match chars0 with
    | [] => []
    | c :: rest => if isNoneOrSep wordSeparator c then rest else chars0
  let chars : List (Option Character) :=
    match chars1.getLast? with
    | none => chars1
    | some c => if isNoneOrSep wordSeparator c then chars1.dropLast else chars1
  if chars.length = 0 ∨ (chars.length = 1 ∧ chars.get? 0 = some none) then []
  else
    let sepMarks : List (Option ℕ) :=
      chars.enum.map (fun (ci : ℕ × Option Character) =>
        if ci.2 = none then some ci.1 else (none : Option ℕ))
    let sepLocs : List ℕ :=
      ((sepMarks.filterMap id).filter (fun l => l ≠ 0)).filter (fun l => l ≠ chars.length)
    match sepLocs with
    | [] => [mkWord (chars.filterMap id)]
    | s0 :: _ =>
      segmentWords chars 0 s0 ++
        (loopSegments sepLocs chars.length).flatMap (fun ab => segmentWords chars ab.1 ab.2)

/-- An `<image>` element inside a pdfminer `<figure>`: its `src` attribute. -/
structure PdfminerImage where
  src : String
deriving DecidableEq, Repr

/-- A pdfminer `<figure>` (`PdfminerFigure`): its `_attr.bbox` (pre-parsed)
and its images. -/
structure PdfminerFigure where
  bbox : List ℚ
  image : List PdfminerImage
deriving DecidableEq, Repr

/-- A pdfminer `<textbox>`: its text lines. -/
structure PdfminerTextbox where
  textline : List PdfminerTextline
deriving DecidableEq, Repr

/-- A pdfminer `<page>`'s `_attr`: `id` (via `parseFloat`) and `bbox`
(pre-parsed from the comma-separated attribute string). -/
structure PdfminerPageAttr where
  id : ℚ
  bbox : List ℚ
deriving DecidableEq, Repr

/-- A pdfminer `<page>` (`PdfminerPage`): attributes, and the optional
`textbox` and `figure` arrays (`undefined` when the page has none). -/
structure PdfminerPage where
  attr : PdfminerPageAttr
  textbox : Option (List PdfminerTextbox)
  figure : Option (List PdfminerFigure)
deriving DecidableEq, Repr

/-- `interpretImages` (`pdfminer.ts`): one `Image` per `<image>` of the figure,
with the figure's flipped box and `path.join(imagsLocation, img._attr.src)`
(modelled as concatenation with a path separator). -/
def interpretImages (fig : PdfminerFigure) (imagsLocation : String)
    (pageHeight : ℚ) (scalingFactor : ℚ := 1) : List Image :=
  fig.image.map (fun img =>
    ⟨getBoundingBox fig.bbox pageHeight scalingFactor,
      imagsLocation ++ "/" ++ img.src⟩)

/-- `getPage` (`pdfminer.ts`, lines 140–198).  `ocrRun` stands for
`orchestrator.run`, the nested OCR extraction of one image file (the
Orchestrator is outside the given sources).  The source line
`imgOCRPromises.concat(newImageElements.map(img => orchestrator.run(img.src)))`
calls `Array.prototype.concat`, which returns a new array; the result is
discarded, so `imgOCRPromises` remains the empty array it was initialised to.
The `discardedOCRRuns` binding makes that dropped value explicit.
`Promise.all` over the list and the flattening of the resulting documents'
elements are modelled directly. -/
def getPage (ocrRun : String → Document) (pageObj : PdfminerPage)
    (imagsLocation : String) : Page :=
  let boxValues : List ℚ := pageObj.attr.bbox
  let pageBBox : BoundingBox :=
    ⟨boxValues.getD 0 0, boxValues.getD 1 0, boxValues.getD 2 0, boxValues.getD 3 0⟩
  let elements : List Element :=
    match pageObj.textbox with
    | none => []
    | some tbs =>
      tbs.flatMap (fun para =>
        para.textline.flatMap (fun l =>
          (breakLineIntoWords l "," pageBBox.height).map Element.word))
  let imgOCRPromises : List Document := []
  match pageObj.figure with
  | none =>
    let docs : List Document := imgOCRPromises
    let newElements : List Element := docs.flatMap Document.getAllElements
    ⟨pageObj.attr.id, elements ++ newElements, pageBBox⟩
  | some figs =>
    let elementsWithImages : List Element :=
      figs.foldl (fun els fig =>
        els ++ (interpretImages fig imagsLocation pageBBox.height).map Element.image)
        elements
    let discardedOCRRuns : List Document :=
      figs.flatMap (fun fig =>
        (interpretImages fig imagsLocation pageBBox.height).map
          (fun imgElement => ocrRun imgElement.src))
    let docs : List Document := imgOCRPromises
    let newElements : List Element := docs.flatMap Document.getAllElements
    ⟨pageObj.attr.id, elementsWithImages ++ newElements, pageBBox⟩

/-- An example word for concrete OCR documents. -/
def wordEx (s : String) : Word :=
  ⟨⟨0, 0, 1, 1⟩, [⟨⟨0, 0, 1, 1⟩, s, fontExA⟩], fontExA, ⟨none, none⟩⟩

/-- A nested OCR run that yields two `Word` elements for any image file. -/
def ocrTwoWords : String → Document := fun src =>
  ⟨[⟨1, [Element.word (wordEx "ocr1"), Element.word (wordEx "ocr2")], ⟨0, 0, 10, 10⟩⟩], src⟩

/-- A page with no text boxes and one figure containing one embedded image. -/
def pageWithOneImage : PdfminerPage :=
  { attr := { id := 1, bbox := [0, 0, 100, 200] }
    textbox := none
    figure := some [{ bbox := [10, 20, 30, 40], image := [{ src := "img1.png" }] }] }

/-- C1 (code bug): for `pageWithOneImage` — one embedded image whose OCR
sub-run yields two `Word` elements — the claim requires a page element count of
(directly extracted elements) + 2 = 1 + 2.  The code produces only the 1
directly extracted element (the `Image`): `imgOCRPromises.concat(...)` discards
`Array.prototype.concat`'s result, so the nested OCR documents never reach the
awaited promise list and their elements are never appended. -/
theorem claim_C1 :
    (getPage ocrTwoWords pageWithOneImage "imgs").elements.length = 1 ∧
    ((ocrTwoWords "imgs/img1.png").getAllElements.length = 2) ∧
    (getPage ocrTwoWords pageWithOneImage "imgs").elements.length ≠ 1 + 2 := by
  refine ⟨by decide, by decide, ?_⟩
  intro h
  rw [show (getPage ocrTwoWords pageWithOneImage "imgs").elements.length = 1 by decide] at h
  omega

/-! ## `execute`'s close handler (`pdfminer.ts`, lines 51–138) -/

/-- The parsed `<pages>` object of pdfminer's XML output (`obj.pages.page`). -/
structure PdfXml where
  page : List PdfminerPage
deriving DecidableEq, Repr

/-- Outcome of the `Promise<Document>` returned by `execute`: resolved with a
document, rejected with an error value, or never settled. -/
inductive RunOutcome where
  | resolved (d : Document)
  | rejected (e : String)
  | pending
deriving DecidableEq, Repr

/-- Does the outcome resolve with a document? -/
def RunOutcome.isResolved : RunOutcome → Bool
  | resolved _ => true
  | _ => false

/-- Is the outcome a rejection? -/
def RunOutcome.isRejected : RunOutcome → Bool
  | rejected _ => true
  | _ => false

/-- The `pdfminer.on('close', ...)` handler of `execute` (`pdfminer.ts`).
`code` is the subprocess exit code and `xmlParse` the result of reading and
parsing the XML output file (`.error` when `parseString` reports an error or
the parsed object lacks `pages.page`).  On a non-zero exit code the document
promise is rejected with a message carrying the code.  On exit code 0 with a
successful parse, one page is built per `<page>` and the document resolves.
On exit code 0 with a parse failure, `parseXmlToObject`'s promise rejects; the
rejection propagates through the `.then` chain, which has no rejection
handler, and the surrounding `try`/`catch` only catches synchronous throws —
so neither `resolveDocument` nor `rejectDocument` ever runs and the document
promise never settles (`pending`). -/
def executeOnClose (code : ℤ) (xmlParse : Except String PdfXml)
    (ocrRun : String → Document) (imgsLocation pdfInputFile : String) : RunOutcome :=
  if code = 0 then
    match xmlParse with
    | .ok obj =>
      .resolved ⟨obj.page.map (fun p => getPage ocrRun p imgsLocation), pdfInputFile⟩
    | .error _ => .pending
  else
    .rejected ("pdfminer return code is " ++ toString code)

/-- C7 (amended): the run is rejected iff the subprocess exit code is non-zero,
and the rejection message carries the exit code (`ExtractionFailed`); on exit
code 0 with XML that parses, the run resolves with the document built from the
parsed pages; on exit code 0 with a parse failure the promise never settles
(it neither resolves nor is rejected). -/
theorem claim_C7 (code : ℤ) (xmlParse : Except String PdfXml)
    (ocrRun : String → Document) (imgsLocation pdfInputFile : String) :
    ((executeOnClose code xmlParse ocrRun imgsLocation pdfInputFile).isRejected = true
        ↔ code ≠ 0) ∧
    (code ≠ 0 → executeOnClose code xmlParse ocrRun imgsLocation pdfInputFile =
        .rejected ("pdfminer return code is " ++ toString code)) ∧
    (∀ obj, code = 0 → xmlParse = .ok obj →
      executeOnClose code xmlParse ocrRun imgsLocation pdfInputFile =
        .resolved ⟨obj.page.map (fun p => getPage ocrRun p imgsLocation), pdfInputFile⟩) ∧
    (∀ e, code = 0 → xmlParse = .error e →
      executeOnClose code xmlParse ocrRun imgsLocation pdfInputFile = .pending) := by
  refine ⟨?_, ?_, ?_, ?_⟩
  · constructor
    · intro h hc
      rw [executeOnClose.eq_def, if_pos hc] at h
      cases xmlParse with
      | ok obj => simp [RunOutcome.isRejected] at h
      | error e => simp [RunOutcome.isRejected] at h
    · intro hc
      rw [executeOnClose.eq_def, if_neg hc]
      rfl
  · intro hc
    rw [executeOnClose.eq_def, if_neg hc]
  · intro obj hc hx
    rw [executeOnClose.eq_def, if_pos hc, hx]
  · intro e hc hx
    rw [executeOnClose.eq_def, if_pos hc, hx]

/-- C7 witness: the amended behaviour at concrete inputs — exit code 1 rejects
with the code in the message, exit code 0 with a good parse resolves, and exit
code 0 with a parse error stays pending. -/
theorem claim_C7_witness :
    executeOnClose 1 (.ok ⟨[]⟩) ocrTwoWords "imgs" "in.pdf" =
      .rejected "pdfminer return code is 1" ∧
    executeOnClose 0 (.ok ⟨[]⟩) ocrTwoWords "imgs" "in.pdf" =
      .resolved ⟨[], "in.pdf"⟩ ∧
    executeOnClose 0 (.error "bad xml") ocrTwoWords "imgs" "in.pdf" = .pending := by
  refine ⟨?_, ?_, ?_⟩
  · exact (claim_C7 1 (.ok ⟨[]⟩) ocrTwoWords "imgs" "in.pdf").2.1 (by decide)
  · exact (claim_C7 0 (.ok ⟨[]⟩) ocrTwoWords "imgs" "in.pdf").2.2.1 ⟨[]⟩ rfl rfl
  · exact (claim_C7 0 (.error "bad xml") ocrTwoWords "imgs" "in.pdf").2.2.2 "bad xml" rfl rfl

/-- C7 counterexample: the claim says "on exit status 0 the run resolves with a
Document built from the tool's XML output"; with exit code 0 and XML the parser
rejects, the run does not resolve (and is not rejected either — it hangs). -/
theorem claim_C7_counterexample :
    (executeOnClose 0 (.error "xml parse error") ocrTwoWords "imgs" "in.pdf").isResolved
        = false ∧
    (executeOnClose 0 (.error "xml parse error") ocrTwoWords "imgs" "in.pdf").isRejected
        = false := by
  decide

/-! ## `TableOfContents` (`TableOfContents.ts`) -/

/-- A TOC item, as built by `contentToTOCItem`:
`new TableOfContentsItem(element.toMarkdown(), '0', 0)` (the
`TableOfContentsItem` class itself is outside the given sources; its three
constructor arguments are modelled positionally). -/
structure TableOfContentsItem where
  text : String
  dest : String
  level : ℕ
deriving DecidableEq, Repr

/-- A content element as `TableOfContents` consumes it: only its Markdown
rendering is read (`contentToTOCItem` calls `element.toMarkdown()`). -/
structure TocElement where
  toMarkdown : String
deriving DecidableEq, Repr

/-- `TableOfContents` (`TableOfContents.ts`): the private backing fields
`_content` and `_items`. -/
structure TableOfContents where
  rawContent : List TocElement
  rawItems : List TableOfContentsItem
deriving DecidableEq, Repr

/-- `contentToTOCItem` (`TableOfContents.ts`). -/
def TableOfContents.contentToTOCItem (element : TocElement) : TableOfContentsItem :=
  ⟨element.toMarkdown, "0", 0⟩

/-- The `content` getter: returns the backing array (in JS, an alias to it). -/
def TableOfContents.content (t : TableOfContents) : List TocElement :=
  t.rawContent

/-- The `items` getter. -/
def TableOfContents.items (t : TableOfContents) : List TableOfContentsItem :=
  t.rawItems

/-- The `content` setter: stores the new sequence, then `updateItems`
recomputes `items` as `this.content.map(this.contentToTOCItem)`. -/
def TableOfContents.setContent (t : TableOfContents) (value : List TocElement) :
    TableOfContents :=
  { t with rawContent := value,
           rawItems := value.map TableOfContents.contentToTOCItem }

/-- In-place mutation of the array previously returned by the `content`
getter: the JS caller writes through the alias, so `_content`'s contents
change without the setter (and hence `updateItems`) running. -/
def TableOfContents.mutateContentInPlace (t : TableOfContents)
    (value : List TocElement) : TableOfContents :=
  { t with rawContent := value }

/-- C8: replacing `content` through the setter recomputes `items`
deterministically as one TOC item per element, in order (same length,
`i`-th item derived from the `i`-th element); mutating the content array in
place leaves `items` unchanged (stale). -/
theorem claim_C8 (t : TableOfContents) (value : List TocElement) :
    (t.setContent value).items = value.map TableOfContents.contentToTOCItem ∧
    (t.setContent value).items.length = value.length ∧
    (∀ i, (t.setContent value).items.get? i =
      (value.get? i).map TableOfContents.contentToTOCItem) ∧
    (t.mutateContentInPlace value).items = t.items ∧
    (t.mutateContentInPlace value).content = value := by
  refine ⟨rfl, by simp [TableOfContents.setContent, TableOfContents.items], ?_, rfl, rfl⟩
  intro i
  simp [TableOfContents.setContent, TableOfContents.items, List.get?_map]

/-! ## Link detection (`LinkDetectionModule.ts`)

The metadata object graph produced by `dumppdf` and parsed by `xml2js` is
modelled by the record shapes the module actually dereferences: objects with
an id carrying either `dict` nodes (key/value arrays) or `list` nodes
(reference arrays and number arrays); dictionary values carrying `literal`
arrays, `string` nodes, `list` nodes, direct `ref` arrays or nested action
dictionaries.  A JS property access on `undefined` (a thrown `TypeError`) is
modelled as an `Except`/`Option` error. -/

/-- A reference item (`item.$.id`). -/
structure RefItem where
  id : String
deriving DecidableEq, Repr

/-- A `<list>` node (`x.list[0]`): its `ref` items and `number` items. -/
structure ListNode where
  ref : List RefItem
  number : List ℚ
deriving DecidableEq, Repr

/-- A `<string>` node (`x.string[0]._`): its text. -/
structure StringNode where
  chars : String
deriving DecidableEq, Repr

/-- A value of an action dictionary (`A`'s dict): only `literal` and `string`
are dereferenced (`parseLinkByActionType`, `parseAction`). -/
structure ActionVal where
  literal : Option (List String)
  stringNodes : Option (List StringNode)
deriving DecidableEq, Repr

/-- An action dictionary node (`annot.dict[0].value[i].dict[0]`). -/
structure ActionDict where
  key : List String
  value : List ActionVal
deriving DecidableEq, Repr

/-- A value of an object dictionary: `literal` (type names), `string` nodes,
a `list` array, a direct `ref` array, or a nested action `dict` array. -/
structure MetaVal where
  literal : Option (List String)
  stringNodes : Option (List StringNode)
  listNode : Option (List ListNode)
  refs : Option (List RefItem)
  dict : Option (List ActionDict)
deriving DecidableEq, Repr

/-- An all-`none` value node, for building concrete examples. -/
def MetaVal.empty : MetaVal :=
  { literal := none, stringNodes := none, listNode := none, refs := none, dict := none }

/-- A dictionary node (`o.dict[0]`): parallel `key` and `value` arrays. -/
structure MetaDict where
  key : List String
  value : List MetaVal
deriving DecidableEq, Repr

/-- A metadata object (`pdf.object[i]`): its `$.id`, and optional `dict` and
`list` arrays. -/
structure MetaObj where
  id : String
  dict : Option (List MetaDict)
  listNode : Option (List ListNode)
deriving DecidableEq, Repr

/-- `d.value[d.key.indexOf(k)]`: JS `indexOf` yields `-1` when the key is
absent and `value[-1]` is `undefined`, so the lookup is `none` unless the key
occurs (and the value array is long enough). -/
def dictValue (d : MetaDict) (k : String) : Option MetaVal :=
  if k ∈ d.key then d.value.get? (d.key.indexOf k) else none

/-- Key lookup in an action dictionary (`obj.key.findIndex(k => k === t)`). -/
def actionValue (obj : ActionDict) (t : String) : Option ActionVal :=
  if t ∈ obj.key then obj.value.get? (obj.key.indexOf t) else none

/-- `deepSearchObjectsWithIds` (`LinkDetectionModule.ts`, lines 148–159):
recursively dereferences annotation object ids; an id resolving to an object
with a `dict` contributes that object, one resolving to an object with a
`list` is expanded into its references, depth first.  `fuel` bounds the
recursion depth (the JS call stack); `none` models a thrown error — an
unresolvable id (`objects.find` returns `undefined`), an object with neither
`dict` nor a usable `list[0]` — or stack exhaustion (`fuel = 0`).
`deepSearchGo` is the `ids.forEach` body at one recursion level, with
`recurse` the call one level deeper. -/
def deepSearchGo (objects : List MetaObj)
    (recurse : List String → Option (List MetaObj)) :
    List String → Option (List MetaObj)
  | [] => some []
  | id :: rest => do
    let obj ← objects.find? (fun o => o.id = id)
    let head ←
      match obj.dict with
      | some _ => some [obj]
      | none =>
        match obj.listNode with
        | some (ln :: _) => recurse (ln.ref.map RefItem.id)
        | _ => none
    let tail ← deepSearchGo objects recurse rest
    some (head ++ tail)

/-- The fuel-indexed entry point: only the expansion of a `list` object's
references descends a recursion level (consumes a JS stack frame); the
traversal of the sibling ids at one level (`ids.forEach`) is the structural
loop of `deepSearchGo`. -/
def deepSearchObjectsWithIds (objects : List MetaObj) :
    ℕ → List String → Option (List MetaObj)
  | 0, _ => none
  | fuel + 1, ids => deepSearchGo objects (deepSearchObjectsWithIds objects fuel) ids

/-- The action target and type returned by `parseLinkByActionType`. -/
structure LinkTarget where
  target : String
  type : String
deriving DecidableEq, Repr

/-- `parseAction` (`LinkDetectionModule.ts`): `obj.value[index].string[0]._`
for the entry whose key is the action type. -/
def parseAction (obj : ActionDict) (t : String) : Except String String :=
  match actionValue obj t with
  | some v =>
    match v.stringNodes with
    | some (s :: _) => .ok s.chars
    | _ => .error "parseAction: no string node"
  | none => .error "parseAction: key not found"

/-- `parseLinkByActionType` (`LinkDetectionModule.ts`): reads the action type
from the `S` entry's first literal; `typeMap` sends `GoTo` to `D` and any
other type to itself (`typeMap[type] || type`); the target is the string
stored under that key. -/
def parseLinkByActionType (obj : ActionDict) : Except String LinkTarget :=
  match actionValue obj "S" with
  | some tv =>
    match tv.literal with
    | some (t :: _) =>
      let mapped := if t = "GoTo" then "D" else t
      match parseAction obj mapped with
      | .ok target => .ok { target := target, type := t }
      | .error e => .error e
    | _ => .error "parseLinkByActionType: no literal"
  | none => .error "parseLinkByActionType: no S entry"

/-- The rectangle of an annotation, as assembled by `extractLinksFromMetadata`
(already flipped into top-left coordinates using the page height). -/
structure AnnotBox where
  l : ℚ
  t : ℚ
  w : ℚ
  h : ℚ
deriving DecidableEq, Repr

/-- One extracted link annotation: box, parsed action, 1-based page number.
(The `id` field added by `main`'s `mdLinks.map((link, id) => ...)` is never
read afterwards and is not modelled.) -/
structure Annotation where
  box : AnnotBox
  link : LinkTarget
  page : ℕ
deriving DecidableEq, Repr

/-- The per-page body of `extractLinksFromMetadata`'s `forEach` (lines
137–175): page height from `MediaBox`'s `list[0].number[3]`, annotation ids
from `Annots` (a `list[0].ref` array or a direct `ref` array), the recursive
dereference, then one `Annotation` per resolved object — `Rect`'s numbers give
the flipped box, `A`'s dictionary the parsed link, and the page number is the
1-based index of the page object among the `Page` objects.  Any `undefined`
dereference is an error that aborts this page (pdfminer's `MediaBox`/`Rect`
number arrays always have four components; missing components would produce
`NaN` coordinates in JS and are defaulted here). -/
def processPage (objects pages : List MetaObj) (fuel : ℕ) (pageObject : MetaObj) :
    Except String (List Annotation) := do
  let d ← match pageObject.dict with
    | some (d :: _) => Except.ok d
    | _ => Except.error "page: no dict node"
  let pageHeight ← match dictValue d "MediaBox" with
    | some v =>
      match v.listNode with
      | some (ln :: _) => Except.ok (ln.number.getD 3 0)
      | _ => Except.error "MediaBox: no list node"
    | none => Except.error "MediaBox: key not found"
  let annotsValue ← match dictValue d "Annots" with
    | some v => Except.ok v
    | none => Except.error "Annots: key not found"
  let annotObjIds ← match annotsValue.listNode with
    | some (ln :: _) => Except.ok (ln.ref.map RefItem.id)
    | some [] => Except.error "Annots: empty list array"
    | none =>
      match annotsValue.refs with
      | some refs => Except.ok (refs.map RefItem.id)
      | none => Except.error "Annots: neither list nor ref"
  let pageAnnots ← match deepSearchObjectsWithIds objects fuel annotObjIds with
    | some r => Except.ok r
    | none => Except.error "deepSearchObjectsWithIds failed"
  pageAnnots.mapM (fun annot => do
    let ad ← match annot.dict with
      | some (a :: _) => Except.ok a
      | _ => Except.error "annot: no dict node"
    let rectV ← match dictValue ad "Rect" with
      | some v => Except.ok v
      | none => Except.error "Rect: key not found"
    let numbers ← match rectV.listNode with
      | some (ln :: _) => Except.ok ln.number
      | _ => Except.error "Rect: no list node"
    let linkV ← match dictValue ad "A" with
      | some v => Except.ok v
      | none => Except.error "A: key not found"
    let aDict ← match linkV.dict with
      | some (a :: _) => Except.ok a
      | _ => Except.error "A: no dict node"
    let link ← parseLinkByActionType aDict
    Except.ok
      { box := { l := numbers.getD 0 0
                 t := pageHeight - numbers.getD 3 0
                 w := numbers.getD 2 0 - numbers.getD 0 0
                 h := numbers.getD 3 0 - numbers.getD 1 0 }
        link := link
        page := (pages.map MetaObj.id).indexOf pageObject.id + 1 })

/-- The predicate of the `pages` filter (line 135):
`o.dict && o.dict[0].value.some(v => v.literal && v.literal.includes('Page'))`.
A present-but-empty `dict` array makes `o.dict[0].value` throw. -/
def isPageObj (o : MetaObj) : Except String Bool :=
  match o.dict with
  | none => Except.ok false
  | some [] => Except.error "dict[0] is undefined"
  | some (d :: _) =>
    Except.ok (d.value.any (fun v =>
      match v.literal with
      | some lits => lits.contains "Page"
      | none => false))

/-- The predicate of the `pagesWithAnnots` filter (line 136):
`o.dict && o.dict[0].key.includes('Annots')`. -/
def hasAnnotsKey (o : MetaObj) : Except String Bool :=
  match o.dict with
  | none => Except.ok false
  | some [] => Except.error "dict[0] is undefined"
  | some (d :: _) => Except.ok (d.key.contains "Annots")

/-- JS `Array.prototype.filter` with a predicate that can throw: elements are
tested in order and the first throw aborts the whole filter. -/
def filterE (p : α → Except String Bool) : List α → Except String (List α)
  | [] => Except.ok []
  | x :: xs => do
    let keep ← p x
    let rest ← filterE p xs
    Except.ok (if keep then x :: rest else rest)

/-- The `pagesWithAnnots.forEach` loop with the surrounding `try`/`catch`:
pages are processed in order, successful pages append their annotations
(`annots.push(...pageAnnots)`), and a throw aborts the loop — the `catch`
then returns the annotations accumulated so far. -/
def accumulateAnnots (objects pages : List MetaObj) (fuel : ℕ) :
    List MetaObj → List Annotation → List Annotation
  | [], acc => acc
  | p :: rest, acc =>
    match processPage objects pages fuel p with
    | .error _ => acc
    | .ok anns => accumulateAnnots objects pages fuel rest (acc ++ anns)

/-- `extractLinksFromMetadata` (`LinkDetectionModule.ts`, lines 128–185).
`md` is the settled result of `getFileMetadata`'s promise: `.error` when the
`dumppdf` tool is absent, exits non-zero, writes to stderr, or its XML fails
to parse (or lacks the `pdf.object` structure the destructuring needs) —
those all reject before any page is processed, so the `catch` returns the
empty `annots`.  On `.ok`, the `pages`/`pagesWithAnnots` filters and the
per-page loop run inside the same `try`: a throw at any point returns the
annotations pushed so far. -/
def extractLinksFromMetadata (fuel : ℕ) (md : Except String (List MetaObj)) :
    List Annotation :=
  match md with
  | .error _ => []
  | .ok objects =>
    match filterE isPageObj objects with
    | .error _ => []
    | .ok pages =>
      match filterE hasAnnotsKey pages with
      | .error _ => []
      | .ok pagesWithAnnots => accumulateAnnots objects pages fuel pagesWithAnnots []

/-- `buildLinkMD` (`LinkDetectionModule.ts`): a `GoTo` action's target is an
in-document anchor `#target`; the rendered link is Markdown
`[word](target)`. -/
def buildLinkMD (word : Word) (l : Annotation) : String × String :=
  let target := if l.link.type = "GoTo" then "#" ++ l.link.target else l.link.target
  ("[" ++ word.toStr ++ "](" ++ target ++ ")", target)

/-- Is `word.properties.link` JS-falsy (`!word.properties.link`)?  Absent, or
present but the empty string. -/
def linkFalsy (word : Word) : Bool :=
  match word.properties.link with
  | none => true
  | some s => s = ""

/-- Does an annotation's box overlap the word's box enough
(`Math.abs(BoundingBox.getPercentageOfInclusion(linkBB, word.box)) > 0.7`)? -/
def annotationMatches (link : Annotation) (word : Word) : Bool :=
  (7 / 10 : ℚ) <
    |BoundingBox.getPercentageOfInclusion ⟨link.box.l, link.box.t, link.box.w, link.box.h⟩
      word.box|

/-- The body of the `links.forEach` loop of `main` (lines 46–54): test one
annotation's box against the word's box and, on a match, overwrite
`word.properties.link` and `targetURL` with the rendered Markdown link and the
raw target. -/
def annotationStep (w : Word) (link : Annotation) : Word :=
  if annotationMatches link w then
    let md := buildLinkMD w link
    { w with properties := { link := some md.1, targetURL := some md.2 } }
  else w

/-- The `links.forEach` loop of `main` for one word: every annotation of the
page is tested in list order, with no short-circuit, and each match overwrites
the word's link properties. -/
def applyAnnotationsToWord (links : List Annotation) (word : Word) : Word :=
  links.foldl annotationStep word

/-- `matchTextualLinks` (`LinkDetectionModule.ts`, lines 64–74).  The two JS
regular expressions (`linkRegexp`, `mailRegexp`) are modelled as Bool-valued
predicates supplied as parameters — the regex engine is a host-library
collaborator, and the claims concern the branching and the synthesized links;
`word.toString().match(r)` is truthy iff the corresponding predicate holds of
the word's text. -/
def matchTextualLinks (urlMatch mailMatch : String → Bool) (word : Word) : Word :=
  if urlMatch word.toStr then
    { word with properties :=
        { link := some ("[" ++ word.toStr ++ "](" ++ word.toStr ++ ")")
          targetURL := some word.toStr } }
  else if mailMatch word.toStr then
    { word with properties :=
        { link := some ("[" ++ word.toStr ++ "](mailto:" ++ word.toStr ++ ")")
          targetURL := some ("mailto:" ++ word.toStr) } }
  else word

/-- One word's processing in `main`: the annotation loop, then — only when the
word still carries no (truthy) `link` property — the textual fallback. -/
def processWord (urlMatch mailMatch : String → Bool) (links : List Annotation)
    (word : Word) : Word :=
  let w := applyAnnotationsToWord links word
  if linkFalsy w then matchTextualLinks urlMatch mailMatch w else w

/-- `LinkDetectionModule.main` (lines 34–62): extract the annotations, then
for each page filter the links whose `page` equals the page number
(`parseInt(link.page, 10) === page.pageNumber`) and process every `Word`
element of the page in place (`getElementsOfType<Word>(Word, true)` over our
two-variant elements is the direct traversal); the document is returned. -/
def linkDetectionMain (urlMatch mailMatch : String → Bool) (fuel : ℕ)
    (md : Except String (List MetaObj)) (doc : Document) : Document :=
  let mdLinks := extractLinksFromMetadata fuel md
  { doc with pages := doc.pages.map (fun page =>
      let links := mdLinks.filter (fun link => ((link.page : ℚ) = page.pageNumber))
      { page with elements := page.elements.map (fun el =>
          match el with
          | .word w => .word (processWord urlMatch mailMatch links w)
          | .image i => .image i) }) }

/-! ### Analysis of the geometric matching (C4) -/

theorem annotationStep_box (w : Word) (l : Annotation) :
    (annotationStep w l).box = w.box ∧ (annotationStep w l).characters = w.characters := by
  rw [annotationStep]
  by_cases h : annotationMatches l w = true
  · rw [if_pos h]; exact ⟨rfl, rfl⟩
  · rw [if_neg h]; exact ⟨rfl, rfl⟩

theorem applyAnnotations_preserves (links : List Annotation) :
    ∀ w : Word, (applyAnnotationsToWord links w).box = w.box ∧
      (applyAnnotationsToWord links w).characters = w.characters := by
  induction links with
  | nil => intro w; exact ⟨rfl, rfl⟩
  | cons l ls ih =>
    intro w
    rw [applyAnnotationsToWord, List.foldl_cons]
    have hstep := annotationStep_box w l
    have htail := ih (annotationStep w l)
    rw [applyAnnotationsToWord] at htail
    exact ⟨htail.1.trans hstep.1, htail.2.trans hstep.2⟩

theorem annotationMatches_congr {w w' : Word} (l : Annotation)
    (h : w.box = w'.box) : annotationMatches l w = annotationMatches l w' := by
  rw [annotationMatches, annotationMatches, h]

theorem foldl_no_match (word : Word) (post : List Annotation)
    (hpost : ∀ b ∈ post, annotationMatches b word = false) :
    ∀ w : Word, w.box = word.box → post.foldl annotationStep w = w := by
  induction post with
  | nil => intro w _; rfl
  | cons b bs ih =>
    intro w hbox
    rw [List.foldl_cons]
    have hb : annotationMatches b w = false :=
      (annotationMatches_congr b hbox).trans (hpost b (List.mem_cons_self _ _))
    have hstep : annotationStep w b = w := by
      rw [annotationStep, hb]
      simp
    rw [hstep]
    exact ih (fun x hx => hpost x (List.mem_cons_of_mem _ hx)) w hbox

theorem toStr_eq_of_characters_eq {w w' : Word}
    (h : w.characters = w'.characters) : w.toStr = w'.toStr := by
  rw [Word.toStr, Word.toStr, h]

theorem bracketed_ne_empty (s t : String) :
    ("[" ++ s ++ "](" ++ t ++ ")" : String) ≠ "" := by
  intro h
  have hlen := congrArg String.length h
  rw [String.length_append, String.length_append, String.length_append,
    String.length_append] at hlen
  have h1 : ("[" : String).length = 1 := rfl
  have h2 : ("](" : String).length = 2 := rfl
  have h3 : (")" : String).length = 1 := rfl
  have h0 : ("" : String).length = 0 := rfl
  omega

/-- C4: within one word's processing, annotations are tested in list order
with no short-circuit, each match overwrites the word's `link`/`targetURL`,
and therefore the word ends with the link of the last matching annotation:
when the page's annotation list splits as `pre ++ a :: post` with `a` matching
and nothing in `post` matching, the final properties come from `a` (and the
textual fallback does not fire, the geometric link being truthy). -/
theorem claim_C4 (urlMatch mailMatch : String → Bool) (word : Word)
    (pre post : List Annotation) (a : Annotation)
    (ha : annotationMatches a word = true)
    (hpost : ∀ b ∈ post, annotationMatches b word = false) :
    (processWord urlMatch mailMatch (pre ++ a :: post) word).properties.link =
      some ("[" ++ word.toStr ++ "](" ++
        (if a.link.type = "GoTo" then "#" ++ a.link.target else a.link.target) ++ ")") ∧
    (processWord urlMatch mailMatch (pre ++ a :: post) word).properties.targetURL =
      some (if a.link.type = "GoTo" then "#" ++ a.link.target else a.link.target) := by
  set w1 := applyAnnotationsToWord pre word with hw1
  have hpres := applyAnnotations_preserves pre word
  have hmatch1 : annotationMatches a w1 = true :=
    (annotationMatches_congr a hpres.1).trans ha
  set w2 := annotationStep w1 a with hw2
  have hw2val : w2 = { w1 with properties :=
      { link := some (buildLinkMD w1 a).1, targetURL := some (buildLinkMD w1 a).2 } } := by
    rw [hw2, annotationStep, if_pos hmatch1]
  have hw2box : w2.box = word.box := by rw [hw2val]; exact hpres.1
  have happ : applyAnnotationsToWord (pre ++ a :: post) word = w2 := by
    show List.foldl annotationStep word (pre ++ a :: post) = w2
    rw [List.foldl_append, List.foldl_cons]
    show List.foldl annotationStep w2 post = w2
    exact foldl_no_match word post hpost w2 hw2box
  have htarget : buildLinkMD w1 a =
      ("[" ++ word.toStr ++ "](" ++
        (if a.link.type = "GoTo" then "#" ++ a.link.target else a.link.target) ++ ")",
       if a.link.type = "GoTo" then "#" ++ a.link.target else a.link.target) := by
    rw [buildLinkMD, toStr_eq_of_characters_eq hpres.2]
  have hfalsy : linkFalsy w2 = false := by
    rw [linkFalsy, hw2val]
    simp only [htarget]
    exact decide_eq_false (bracketed_ne_empty _ _)
  rw [processWord]
  simp only [happ, hfalsy, Bool.false_eq_true, if_false]
  rw [hw2val, htarget]
  exact ⟨rfl, rfl⟩

/-- A word with text `"Hi"` inside the unit square. -/
def hiWordEx : Word :=
  ⟨⟨0, 0, 10, 10⟩, [⟨⟨0, 0, 10, 10⟩, "Hi", fontExA⟩], fontExA, ⟨none, none⟩⟩

/-- An annotation covering the word box. -/
def annotationEx : Annotation :=
  { box := { l := 0, t := 0, w := 10, h := 8 }
    link := { target := "https://target.example", type := "URI" }
    page := 1 }

/-- An annotation disjoint from the word box. -/
def annotationFarEx : Annotation :=
  { box := { l := 100, t := 100, w := 5, h := 5 }
    link := { target := "https://other.example", type := "URI" }
    page := 1 }

theorem claim_C4_witness :
    (processWord (fun _ => false) (fun _ => false)
        ([annotationFarEx] ++ annotationEx :: [annotationFarEx]) hiWordEx).properties.link =
      some "[Hi](https://target.example)" ∧
    (processWord (fun _ => false) (fun _ => false)
        ([annotationFarEx] ++ annotationEx :: [annotationFarEx]) hiWordEx).properties.targetURL =
      some "https://target.example" := by
  have h := claim_C4 (fun _ => false) (fun _ => false) hiWordEx
    [annotationFarEx] [annotationFarEx] annotationEx
    (by norm_num [annotationMatches, BoundingBox.getPercentageOfInclusion,
      annotationEx, hiWordEx])
    (by
      intro b hb
      rw [List.mem_singleton.1 hb]
      norm_num [annotationMatches, BoundingBox.getPercentageOfInclusion,
        annotationFarEx, hiWordEx])
  refine ⟨h.1.trans ?_, h.2.trans ?_⟩
  · rfl
  · rfl

/-- C5: the textual fallback runs only on words whose `link` property is still
unset (falsy) after geometric matching; it assigns the URL-style Markdown link
when the URL pattern matches, otherwise the mailto-style link when the email
pattern matches, and otherwise leaves the word — in particular its absent
`link` property — completely unchanged. -/
theorem claim_C5 (urlMatch mailMatch : String → Bool) (word : Word) :
    (urlMatch word.toStr = true →
      (matchTextualLinks urlMatch mailMatch word).properties =
        { link := some ("[" ++ word.toStr ++ "](" ++ word.toStr ++ ")")
          targetURL := some word.toStr }) ∧
    (urlMatch word.toStr = false → mailMatch word.toStr = true →
      (matchTextualLinks urlMatch mailMatch word).properties =
        { link := some ("[" ++ word.toStr ++ "](mailto:" ++ word.toStr ++ ")")
          targetURL := some ("mailto:" ++ word.toStr) }) ∧
    (urlMatch word.toStr = false → mailMatch word.toStr = false →
      matchTextualLinks urlMatch mailMatch word = word) ∧
    (∀ links, linkFalsy (applyAnnotationsToWord links word) = false →
      processWord urlMatch mailMatch links word = applyAnnotationsToWord links word) ∧
    (∀ links, linkFalsy (applyAnnotationsToWord links word) = true →
      processWord urlMatch mailMatch links word =
        matchTextualLinks urlMatch mailMatch (applyAnnotationsToWord links word)) := by
  refine ⟨?_, ?_, ?_, ?_, ?_⟩
  · intro hu
    rw [matchTextualLinks, if_pos hu]
  · intro hu hm
    rw [matchTextualLinks, hu]
    simp only [Bool.false_eq_true, if_false]
    rw [if_pos hm]
  · intro hu hm
    rw [matchTextualLinks, hu, hm]
    simp
  · intro links h
    rw [processWord]
    simp only [h, Bool.false_eq_true, if_false]
  · intro links h
    rw [processWord]
    simp only [h, if_true]

/-- A word whose text is `https://example.com`. -/
def urlWordEx : Word :=
  ⟨⟨0, 0, 1, 1⟩, [⟨⟨0, 0, 1, 1⟩, "https://example.com", fontExA⟩], fontExA, ⟨none, none⟩⟩

theorem claim_C5_witness :
    (matchTextualLinks (fun s => s = "https://example.com") (fun _ => false)
        urlWordEx).properties =
      { link := some "[https://example.com](https://example.com)"
        targetURL := some "https://example.com" } := by
  have h := (claim_C5 (fun s => s = "https://example.com") (fun _ => false) urlWordEx).1
    (by decide)
  exact h.trans (by rfl)

/-! ### Error handling of the metadata extraction (C6) -/

/-- C6 (amended): every failure of the auxiliary metadata extraction is caught
inside the module and never aborts the run — `main` still returns the document
(here: with the same page count, page numbers and input file).  Failures of
the metadata subprocess itself — tool absent, non-zero exit, stderr output,
XML parse failure — reject `getFileMetadata`'s promise before any page is
processed and yield an empty annotation list; a structure failure thrown while
processing one page's annotations aborts the page loop but keeps the
annotations accumulated from earlier pages, so the returned list need not be
empty. -/
theorem claim_C6 :
    (∀ (fuel : ℕ) (e : String), extractLinksFromMetadata fuel (.error e) = []) ∧
    (∀ (objects pages : List MetaObj) (fuel : ℕ) (p : MetaObj) (rest : List MetaObj)
        (acc : List Annotation) (e : String),
      processPage objects pages fuel p = .error e →
      accumulateAnnots objects pages fuel (p :: rest) acc = acc) ∧
    (∀ (urlMatch mailMatch : String → Bool) (fuel : ℕ)
        (md : Except String (List MetaObj)) (doc : Document),
      (linkDetectionMain urlMatch mailMatch fuel md doc).pages.length =
          doc.pages.length ∧
      (linkDetectionMain urlMatch mailMatch fuel md doc).pages.map Page.pageNumber =
          doc.pages.map Page.pageNumber ∧
      (linkDetectionMain urlMatch mailMatch fuel md doc).inputFile = doc.inputFile) := by
  refine ⟨fun _ _ => rfl, ?_, ?_⟩
  · intro objects pages fuel p rest acc e h
    rw [accumulateAnnots, h]
  · intro urlMatch mailMatch fuel md doc
    refine ⟨?_, ?_, rfl⟩
    · rw [linkDetectionMain]
      simp
    · rw [linkDetectionMain]
      simp

/-- Metadata value carrying the `Page` type literal. -/
def vTypePage : MetaVal := { MetaVal.empty with literal := some ["Page"] }

/-- A `MediaBox` value: `list[0].number = [0, 0, 612, 792]`. -/
def vMediaBoxEx : MetaVal :=
  { MetaVal.empty with listNode := some [{ ref := [], number := [0, 0, 612, 792] }] }

/-- An `Annots` value referencing annotation object `a1` directly (`ref`). -/
def vAnnotsEx : MetaVal := { MetaVal.empty with refs := some [⟨"a1"⟩] }

/-- A well-formed page object with one annotation reference. -/
def pageObjGood : MetaObj :=
  { id := "p1"
    dict := some [{ key := ["Type", "MediaBox", "Annots"]
                    value := [vTypePage, vMediaBoxEx, vAnnotsEx] }]
    listNode := none }

/-- A malformed page object: it has `Annots` but no `MediaBox`, so
`dict[0].value[-1].list` throws while computing the page height. -/
def pageObjBad : MetaObj :=
  { id := "p2"
    dict := some [{ key := ["Type", "Annots"], value := [vTypePage, vAnnotsEx] }]
    listNode := none }

/-- The `S` entry of the example action: type literal `URI`. -/
def avS : ActionVal := { literal := some ["URI"], stringNodes := none }

/-- The `URI` entry of the example action: the target string. -/
def avURI : ActionVal :=
  { literal := none, stringNodes := some [⟨"https://example.com"⟩] }

/-- The `Rect` value of the example annotation. -/
def vRectEx : MetaVal :=
  { MetaVal.empty with listNode := some [{ ref := [], number := [10, 20, 110, 70] }] }

/-- The `A` value of the example annotation: a URI action dictionary. -/
def vAEx : MetaVal :=
  { MetaVal.empty with dict := some [{ key := ["S", "URI"], value := [avS, avURI] }] }

/-- The example annotation object. -/
def annotObjEx : MetaObj :=
  { id := "a1"
    dict := some [{ key := ["Rect", "A"], value := [vRectEx, vAEx] }]
    listNode := none }

/-- A metadata graph with one good page, one malformed page and one
annotation object. -/
def exMetaObjects : List MetaObj := [pageObjGood, pageObjBad, annotObjEx]

/-- C6 counterexample: on `exMetaObjects` the second page's processing fails
with a structure error (no `MediaBox`), yet the extraction returns the one
annotation already accumulated from the first page — a failure of the
metadata extraction that is caught but does not yield an empty annotation
list, contradicting the claim. -/
theorem claim_C6_counterexample :
    processPage exMetaObjects [pageObjGood, pageObjBad] 2 pageObjBad =
      .error "MediaBox: key not found" ∧
    (extractLinksFromMetadata 2 (.ok exMetaObjects)).length = 1 ∧
    extractLinksFromMetadata 2 (.ok exMetaObjects) ≠ [] := by
  refine ⟨rfl, by decide, ?_⟩
  intro h
  have := congrArg List.length h
  rw [show (extractLinksFromMetadata 2 (.ok exMetaObjects)).length = 1 by decide] at this
  exact Nat.one_ne_zero this

/-! ### Termination and order of the recursive dereference (C9) -/

/-- Depth-first resolution specification: `Resolves objects ids result` holds
when the recursive dereference of `ids` terminates and `result` is exactly the
concrete dictionary objects reachable from `ids`, in depth-first order — each
id, in order, contributes itself when it resolves to a `dict` object, and the
in-place (spliced) resolution of its references when it resolves to a `list`
object. -/
inductive Resolves (objects : List MetaObj) : List String → List MetaObj → Prop where
  | nil : Resolves objects [] []
  | dict {id : String} {rest : List String} {obj : MetaObj} {tail : List MetaObj} :
      objects.find? (fun o => o.id = id) = some obj →
      obj.dict.isSome = true →
      Resolves objects rest tail →
      Resolves objects (id :: rest) (obj :: tail)
  | list {id : String} {rest : List String} {obj : MetaObj} {ln : ListNode}
      {lns : List ListNode} {sub tail : List MetaObj} :
      objects.find? (fun o => o.id = id) = some obj →
      obj.dict = none →
      obj.listNode = some (ln :: lns) →
      Resolves objects (ln.ref.map RefItem.id) sub →
      Resolves objects rest tail →
      Resolves objects (id :: rest) (sub ++ tail)

/-- An object the dereference can consume: it has a `dict`, or a `list` whose
first node exists. -/
def UsableObj (o : MetaObj) : Prop :=
  o.dict.isSome = true ∨ ∃ ln lns, o.listNode = some (ln :: lns)

/-- An id that resolves (via `objects.find`) to a usable object. -/
def ResolvableId (objects : List MetaObj) (id : String) : Prop :=
  ∃ obj, objects.find? (fun o => o.id = id) = some obj ∧ UsableObj obj

/-- Acyclicity of the reference graph, witnessed by a depth measure: every
reference held by a (resolved) list object has strictly smaller depth than the
id that led to it, and itself resolves to a usable object. -/
def AcyclicDepth (objects : List MetaObj) (depth : String → ℕ) : Prop :=
  ∀ id obj, objects.find? (fun o => o.id = id) = some obj →
    obj.dict = none → ∀ ln lns, obj.listNode = some (ln :: lns) →
      ∀ r ∈ ln.ref, depth r.id < depth id ∧ ResolvableId objects r.id

theorem deepSearch_sound (objects : List MetaObj) (depth : String → ℕ)
    (hgraph : AcyclicDepth objects depth) :
    ∀ B ids, (∀ id ∈ ids, depth id + 1 < B) →
      (∀ id ∈ ids, ResolvableId objects id) →
      ∃ result, Resolves objects ids result ∧
        ∀ fuel, 0 < fuel → (∀ id ∈ ids, depth id + 1 < fuel) →
          deepSearchObjectsWithIds objects fuel ids = some result := by
  intro B
  induction B using Nat.strong_induction_on with
  | _ B ihB =>
    intro ids
    induction ids with
    | nil =>
      intro _ _
      refine ⟨[], Resolves.nil, ?_⟩
      intro fuel hpos _
      obtain ⟨f, rfl⟩ : ∃ f, fuel = f + 1 := ⟨fuel - 1, by omega⟩
      rfl
    | cons id rest ihRest =>
      intro hB hres
      obtain ⟨obj, hfind, husable⟩ := hres id (List.mem_cons_self _ _)
      obtain ⟨tail, htail, htailev⟩ :=
        ihRest (fun x hx => hB x (List.mem_cons_of_mem _ hx))
          (fun x hx => hres x (List.mem_cons_of_mem _ hx))
      cases hdict : obj.dict with
      | some dnodes =>
        refine ⟨obj :: tail, Resolves.dict hfind (by rw [hdict]; rfl) htail, ?_⟩
        intro fuel hpos hfuel
        obtain ⟨f, rfl⟩ : ∃ f, fuel = f + 1 := ⟨fuel - 1, by omega⟩
        show deepSearchGo objects (deepSearchObjectsWithIds objects f) (id :: rest)
          = some (obj :: tail)
        rw [deepSearchGo, hfind]
        have htl : deepSearchGo objects (deepSearchObjectsWithIds objects f) rest
            = some tail :=
          htailev (f + 1) (by omega) (fun x hx => hfuel x (List.mem_cons_of_mem _ hx))
        simp only [Option.bind_eq_bind, Option.some_bind, hdict, htl]
        rfl
      | none =>
        obtain ⟨ln, lns, hlist⟩ : ∃ ln lns, obj.listNode = some (ln :: lns) := by
          rcases husable with h | h
          · rw [hdict] at h
            exact absurd h (by simp)
          · exact h
        have hchild := hgraph id obj hfind hdict ln lns hlist
        have hresChild : ∀ cid ∈ ln.ref.map RefItem.id, ResolvableId objects cid := by
          intro cid hc
          obtain ⟨r, hr, rfl⟩ := List.mem_map.1 hc
          exact (hchild r hr).2
        have hdepthChild : ∀ cid ∈ ln.ref.map RefItem.id,
            depth cid + 1 < depth id + 1 := by
          intro cid hc
          obtain ⟨r, hr, rfl⟩ := List.mem_map.1 hc
          have := (hchild r hr).1
          omega
        have hBid : depth id + 1 < B := hB id (List.mem_cons_self _ _)
        obtain ⟨sub, hsub, hsubev⟩ :=
          ihB (depth id + 1) hBid (ln.ref.map RefItem.id) hdepthChild hresChild
        refine ⟨sub ++ tail, Resolves.list hfind hdict hlist hsub htail, ?_⟩
        intro fuel hpos hfuel
        obtain ⟨f, rfl⟩ : ∃ f, fuel = f + 1 := ⟨fuel - 1, by omega⟩
        have hfId : depth id + 1 < f + 1 := hfuel id (List.mem_cons_self _ _)
        have hfpos : 0 < f := by omega
        show deepSearchGo objects (deepSearchObjectsWithIds objects f) (id :: rest)
          = some (sub ++ tail)
        rw [deepSearchGo, hfind]
        have hsubf : deepSearchObjectsWithIds objects f (ln.ref.map RefItem.id)
            = some sub :=
          hsubev f hfpos (fun cid hc => by
            have := hdepthChild cid hc
            omega)
        have htl : deepSearchGo objects (deepSearchObjectsWithIds objects f) rest
            = some tail :=
          htailev (f + 1) (by omega) (fun x hx => hfuel x (List.mem_cons_of_mem _ hx))
        simp only [Option.bind_eq_bind, Option.some_bind, hdict, hlist, hsubf, htl]

/-- A bound above every member of a list of naturals. -/
theorem le_foldr_max (l : List ℕ) : ∀ x ∈ l, x ≤ l.foldr max 0 := by
  induction l with
  | nil => intro x hx; exact absurd hx (List.not_mem_nil x)
  | cons a as ih =>
    intro x hx
    rw [List.foldr_cons]
    rcases List.mem_cons.1 hx with rfl | hx'
    · exact Nat.le_max_left _ _
    · exact Nat.le_trans (ih x hx') (Nat.le_max_right _ _)

/-- C9: on an acyclic metadata object graph — witnessed by a depth measure
under which every list object's references strictly descend, each resolving to
a dictionary or a further list — the recursive dereference terminates: there
is a result list such that every sufficiently large fuel (i.e. enough JS stack)
returns it, some sufficient fuel exists, and the result is exactly the
depth-first resolution `Resolves` of the initial reference list. -/
theorem claim_C9 (objects : List MetaObj) (depth : String → ℕ)
    (hgraph : AcyclicDepth objects depth) (ids : List String)
    (hids : ∀ id ∈ ids, ResolvableId objects id) :
    ∃ result, Resolves objects ids result ∧
      (∀ fuel, (∀ id ∈ ids, depth id + 1 < fuel) → 0 < fuel →
        deepSearchObjectsWithIds objects fuel ids = some result) ∧
      ∃ fuel, 0 < fuel ∧ (∀ id ∈ ids, depth id + 1 < fuel) := by
  have hbound : ∀ id ∈ ids, depth id + 1 < (ids.map depth).foldr max 0 + 2 := by
    intro id hid
    have := le_foldr_max (ids.map depth) (depth id) (List.mem_map_of_mem depth hid)
    omega
  obtain ⟨result, hres, hev⟩ :=
    deepSearch_sound objects depth hgraph ((ids.map depth).foldr max 0 + 2) ids hbound hids
  exact ⟨result, hres, fun fuel hf hpos => hev fuel hpos hf,
    (ids.map depth).foldr max 0 + 2, by omega, hbound⟩

/-- A list object referencing the example annotation object. -/
def listObjEx : MetaObj :=
  { id := "L", dict := none, listNode := some [{ ref := [⟨"a1"⟩], number := [] }] }

/-- A two-object graph: a dictionary object and a list object pointing at it. -/
def exGraphObjects : List MetaObj := [annotObjEx, listObjEx]

/-- The depth measure witnessing `exGraphObjects`' acyclicity. -/
def exGraphDepth : String → ℕ := fun id => if id = "L" then 1 else 0

theorem claim_C9_witness :
    ∃ result, Resolves exGraphObjects ["L"] result ∧
      (∀ fuel, (∀ id ∈ ["L"], exGraphDepth id + 1 < fuel) → 0 < fuel →
        deepSearchObjectsWithIds exGraphObjects fuel ["L"] = some result) ∧
      ∃ fuel, 0 < fuel ∧ (∀ id ∈ ["L"], exGraphDepth id + 1 < fuel) :=
  claim_C9 exGraphObjects exGraphDepth
    (by
      intro id obj hfind hdict ln lns hlist r hr
      have hp := List.find?_some hfind
      have hmem := List.mem_of_find?_eq_some hfind
      rw [decide_eq_true_eq] at hp
      rcases List.mem_cons.1 hmem with rfl | hmem'
      · exact absurd hdict (by rw [show annotObjEx.dict =
          some [{ key := ["Rect", "A"], value := [vRectEx, vAEx] }] from rfl]; simp)
      · rcases List.mem_cons.1 hmem' with rfl | hmem''
        · rw [show listObjEx.listNode =
            some [{ ref := [⟨"a1"⟩], number := [] }] from rfl] at hlist
          have hln : ln = { ref := [⟨"a1"⟩], number := [] } :=
            (List.cons_eq_cons.1 (Option.some.inj hlist).symm).1
          rw [hln] at hr
          have hrid : r = ⟨"a1"⟩ := List.mem_singleton.1 hr
          constructor
          · rw [hrid, ← hp]
            decide
          · exact ⟨annotObjEx, by rw [hrid]; rfl, Or.inl rfl⟩
        · exact absurd hmem'' (List.not_mem_nil obj))
    ["L"]
    (by
      intro id hid
      rw [List.mem_singleton.1 hid]
      exact ⟨listObjEx, rfl, Or.inr ⟨{ ref := [⟨"a1"⟩], number := [] }, [], rfl⟩⟩)

/-! ## `ServerManager` module naming (`src/unnamed/part_000`)

`getModules` maps a module directory name through
`d.replace(camelPattern, '$1-$2').toLowerCase().replace(dashModulePattern, '')`
(the camel pattern being lower-then-upper, the other the literal `-module`);
`getModuleConfig` reconstructs the folder name from a module name by appending
`-module`, splitting on `-`, capitalising each part and joining.  Names are
modelled as `List Char`; the ASCII case mapping of JS
`toLowerCase`/`toUpperCase` is fixed by an explicit letter-pair table. -/

/-- The 26 ASCII letter pairs (lowercase, uppercase). -/
def letterPairs : List (Char × Char) :=
  [('a', 'A'), ('b', 'B'), ('c', 'C'), ('d', 'D'), ('e', 'E'), ('f', 'F'),
   ('g', 'G'), ('h', 'H'), ('i', 'I'), ('j', 'J'), ('k', 'K'), ('l', 'L'),
   ('m', 'M'), ('n', 'N'), ('o', 'O'), ('p', 'P'), ('q', 'Q'), ('r', 'R'),
   ('s', 'S'), ('t', 'T'), ('u', 'U'), ('v', 'V'), ('w', 'W'), ('x', 'X'),
   ('y', 'Y'), ('z', 'Z')]

/-- `[a-z]` of the camel-case regex. -/
def isLowerAlpha (c : Char) : Bool := letterPairs.any (fun p => p.1 = c)

/-- `[A-Z]` of the camel-case regex. -/
def isUpperAlpha (c : Char) : Bool := letterPairs.any (fun p => p.2 = c)

/-- JS `toLowerCase` on one character (ASCII letters; all others unchanged —
the module names involved are ASCII). -/
def jsToLower (c : Char) : Char :=
  match letterPairs.find? (fun p => p.2 = c) with
  | some p => p.1
  | none => c

/-- JS `toUpperCase` on one character. -/
def jsToUpper (c : Char) : Char :=
  match letterPairs.find? (fun p => p.1 = c) with
  | some p => p.2
  | none => c

/-- The global replace `d.replace(/([a-z])([A-Z])/g, '$1-$2')`: a hyphen is
inserted between every lowercase letter and an uppercase letter directly
following it.  Two matches of the two-character pattern can never overlap
(the second matched character is uppercase, so it cannot begin a match), so
the left-to-right global replacement is exactly this pairwise insertion. -/
def camelToHyphen : List Char → List Char
  | [] => []
  | [c] => [c]
  | a :: b :: rest =>
    if isLowerAlpha a && isUpperAlpha b then a :: '-' :: camelToHyphen (b :: rest)
    else a :: camelToHyphen (b :: rest)

/-- The global replace of the literal pattern `-module` by `''`: every non-overlapping
occurrence of `-module`, scanning left to right without rescanning the
produced text, is removed. -/
def removeDashModule : List Char → List Char
  | '-' :: 'm' :: 'o' :: 'd' :: 'u' :: 'l' :: 'e' :: rest => removeDashModule rest
  | c :: rest => c :: removeDashModule rest
  | [] => []

/-- One directory name's image under `getModules` (the directory listing and
the `dirent` filtering are host file-system calls outside the model). -/
def moduleNameOfDir (d : List Char) : List Char :=
  removeDashModule ((camelToHyphen d).map jsToLower)

/-- JS `split('-')`. -/
def splitOnDash : List Char → List (List Char)
  | [] => [[]]
  | c :: rest =>
    let r := splitOnDash rest
    if c = '-' then [] :: r
    else
      match r with
      | [] => [[c]]
      | p :: ps => (c :: p) :: ps

/-- `w[0].toUpperCase() + w.substr(1).toLowerCase()` of `getModuleConfig`; on
an empty part `w[0]` is `undefined` and `.toUpperCase()` throws (`none`). -/
def capitalizePart : List Char → Option (List Char)
  | [] => none
  | c :: rest => some (jsToUpper c :: rest.map jsToLower)

/-- The folder-name reconstruction of `getModuleConfig`: append `-module`,
split on `-`, capitalise each part, join with `''`. -/
def moduleFolderOfName (moduleName : List Char) : Option (List Char) := do
  let parts := splitOnDash (moduleName ++ ('-' :: "module".toList))
  let caps ← parts.mapM capitalizePart
  pure caps.flatten

/-- Words joined by hyphens (the kebab-case shape `getModules` produces). -/
def intercalateDash : List (List Char) → List Char
  | [] => []
  | [w] => w
  | w :: ws => w ++ '-' :: intercalateDash ws

/-- A capitalized alphabetic word: one uppercase ASCII letter followed by at
least one lowercase ASCII letter. -/
def GoodWord (w : List Char) : Prop :=
  ∃ u ls, w = u :: ls ∧ isUpperAlpha u = true ∧ ls ≠ [] ∧
    ∀ c ∈ ls, isLowerAlpha c = true

/-! ### Facts about the ASCII case table -/

theorem jsToLower_lower : ∀ p ∈ letterPairs, jsToLower p.1 = p.1 := by decide

theorem jsToLower_upper : ∀ p ∈ letterPairs, jsToLower p.2 = p.1 := by decide

theorem jsToUpper_lower : ∀ p ∈ letterPairs, jsToUpper p.1 = p.2 := by decide

theorem lower_isLower : ∀ p ∈ letterPairs, isLowerAlpha p.1 = true := by decide

theorem lower_ne_dash : ∀ p ∈ letterPairs, p.1 ≠ '-' := by decide

theorem upper_not_lower : ∀ p ∈ letterPairs, isLowerAlpha p.2 = false := by decide

theorem lower_not_upper : ∀ p ∈ letterPairs, isUpperAlpha p.1 = false := by decide

theorem isLowerAlpha_spec {c : Char} (h : isLowerAlpha c = true) :
    ∃ p ∈ letterPairs, p.1 = c := by
  rw [isLowerAlpha, List.any_eq_true] at h
  obtain ⟨p, hp, he⟩ := h
  exact ⟨p, hp, by simpa using he⟩

theorem isUpperAlpha_spec {c : Char} (h : isUpperAlpha c = true) :
    ∃ p ∈ letterPairs, p.2 = c := by
  rw [isUpperAlpha, List.any_eq_true] at h
  obtain ⟨p, hp, he⟩ := h
  exact ⟨p, hp, by simpa using he⟩

theorem jsToLower_of_lower {c : Char} (h : isLowerAlpha c = true) :
    jsToLower c = c := by
  obtain ⟨p, hp, rfl⟩ := isLowerAlpha_spec h
  exact jsToLower_lower p hp

theorem ne_dash_of_lower {c : Char} (h : isLowerAlpha c = true) : c ≠ '-' := by
  obtain ⟨p, hp, rfl⟩ := isLowerAlpha_spec h
  exact lower_ne_dash p hp

theorem isLower_jsToLower_upper {c : Char} (h : isUpperAlpha c = true) :
    isLowerAlpha (jsToLower c) = true := by
  obtain ⟨p, hp, rfl⟩ := isUpperAlpha_spec h
  rw [jsToLower_upper p hp]
  exact lower_isLower p hp

theorem jsToUpper_jsToLower_upper {c : Char} (h : isUpperAlpha c = true) :
    jsToUpper (jsToLower c) = c := by
  obtain ⟨p, hp, rfl⟩ := isUpperAlpha_spec h
  rw [jsToLower_upper p hp]
  exact jsToUpper_lower p hp

theorem not_lower_of_upper {c : Char} (h : isUpperAlpha c = true) :
    isLowerAlpha c = false := by
  obtain ⟨p, hp, rfl⟩ := isUpperAlpha_spec h
  exact upper_not_lower p hp

theorem not_upper_of_lower {c : Char} (h : isLowerAlpha c = true) :
    isUpperAlpha c = false := by
  obtain ⟨p, hp, rfl⟩ := isLowerAlpha_spec h
  exact lower_not_upper p hp

/-! ### Hyphen insertion at camel-case boundaries -/

theorem camelToHyphen_lower_run (ls : List Char) (hls : ls ≠ [])
    (hlow : ∀ c ∈ ls, isLowerAlpha c = true) (b : Char)
    (hb : isUpperAlpha b = true) (rest : List Char) :
    camelToHyphen (ls ++ b :: rest) = ls ++ '-' :: camelToHyphen (b :: rest) := by
  induction ls with
  | nil => exact absurd rfl hls
  | cons l ls' ih =>
    cases ls' with
    | nil =>
      rw [List.cons_append, List.nil_append, camelToHyphen,
        hlow l (List.mem_cons_self _ _), hb]
      rfl
    | cons l2 ls'' =>
      have h2 : camelToHyphen (l :: l2 :: (ls'' ++ b :: rest)) =
          l :: camelToHyphen (l2 :: (ls'' ++ b :: rest)) := by
        rw [camelToHyphen, not_upper_of_lower (hlow l2 (List.mem_cons_of_mem _
          (List.mem_cons_self _ _)))]
        simp
      have h3 := ih (by simp) (fun c hc => hlow c (List.mem_cons_of_mem _ hc))
      simp only [List.cons_append] at h2 h3 ⊢
      rw [h2, h3]

theorem camelToHyphen_word (u : Char) (hu : isUpperAlpha u = true)
    (ls : List Char) (hls : ls ≠ []) (hlow : ∀ c ∈ ls, isLowerAlpha c = true)
    (b : Char) (hb : isUpperAlpha b = true) (rest : List Char) :
    camelToHyphen (u :: ls ++ b :: rest) =
      u :: ls ++ '-' :: camelToHyphen (b :: rest) := by
  cases ls with
  | nil => exact absurd rfl hls
  | cons l ls' =>
    have h1 : camelToHyphen (u :: l :: (ls' ++ b :: rest)) =
        u :: camelToHyphen (l :: (ls' ++ b :: rest)) := by
      rw [camelToHyphen, not_lower_of_upper hu]
      simp
    have h2 := camelToHyphen_lower_run (l :: ls') (by simp) hlow b hb rest
    simp only [List.cons_append] at h1 h2 ⊢
    rw [h1, h2]

theorem intercalateDash_cons (w : List Char) (L : List (List Char)) (h : L ≠ []) :
    intercalateDash (w :: L) = w ++ '-' :: intercalateDash L := by
  cases L with
  | nil => exact absurd rfl h
  | cons w' L' => rfl

theorem flatten_module_head (ws : List (List Char))
    (hgood : ∀ w ∈ ws, GoodWord w) :
    ∃ b rest, ws.flatten ++ "Module".toList = b :: rest ∧ isUpperAlpha b = true := by
  cases ws with
  | nil => exact ⟨'M', "odule".toList, rfl, by decide⟩
  | cons w ws' =>
    obtain ⟨u, ls, rfl, hu, _, _⟩ := hgood w (List.mem_cons_self _ _)
    exact ⟨u, ls ++ (ws'.flatten ++ "Module".toList), by simp, hu⟩

theorem camelToHyphen_flatten (ws : List (List Char))
    (hgood : ∀ w ∈ ws, GoodWord w) :
    camelToHyphen (ws.flatten ++ "Module".toList) =
      intercalateDash (ws ++ ["Module".toList]) := by
  induction ws with
  | nil => decide
  | cons w ws' ih =>
    obtain ⟨u, ls, rfl, hu, hls, hlow⟩ := hgood w (List.mem_cons_self _ _)
    obtain ⟨b, brest, hbeq, hb⟩ :=
      flatten_module_head ws' (fun x hx => hgood x (List.mem_cons_of_mem _ hx))
    have hflat : ((u :: ls) :: ws').flatten ++ "Module".toList =
        u :: (ls ++ (b :: brest)) := by
      rw [List.flatten_cons]
      simp only [List.cons_append, List.append_assoc]
      rw [hbeq]
    have hword := camelToHyphen_word u hu ls hls hlow b hb brest
    have hih := ih (fun x hx => hgood x (List.mem_cons_of_mem _ hx))
    have hic := intercalateDash_cons (u :: ls) (ws' ++ ["Module".toList]) (by simp)
    simp only [List.cons_append, List.append_assoc] at hflat hword hic ⊢
    rw [hflat, hword, ← hbeq, hih]
    exact hic.symm

/-! ### Lowercasing -/

theorem map_jsToLower_intercalate (L : List (List Char)) :
    (intercalateDash L).map jsToLower =
      intercalateDash (L.map (List.map jsToLower)) := by
  induction L with
  | nil => rfl
  | cons w L' ih =>
    cases L' with
    | nil => rfl
    | cons w' L'' =>
      have h1 := intercalateDash_cons w (w' :: L'') (by simp)
      have h2 := intercalateDash_cons (w.map jsToLower)
        ((w'.map jsToLower) :: L''.map (List.map jsToLower)) (by simp)
      simp only [List.map_cons]
      rw [h1, List.map_append, List.map_cons,
        show jsToLower '-' = '-' from by decide, ih, h2]
      simp only [List.map_cons]

/-! ### Removal of the `-module` occurrences -/

theorem removeDashModule_cons_ne (c : Char) (t : List Char) (hc : c ≠ '-') :
    removeDashModule (c :: t) = c :: removeDashModule t := by
  conv_lhs => rw [removeDashModule.eq_def]
  split
  · next rest heq => exact absurd (List.cons_eq_cons.1 heq).1 hc
  · next c' rest heq =>
    rw [(List.cons_eq_cons.1 heq).1, (List.cons_eq_cons.1 heq).2]
  · next heq => exact absurd heq (List.cons_ne_nil c t)

theorem removeDashModule_dash_module (rest : List Char) :
    removeDashModule ('-' :: 'm' :: 'o' :: 'd' :: 'u' :: 'l' :: 'e' :: rest) =
      removeDashModule rest := rfl

theorem removeDashModule_dash_not_module (t : List Char)
    (h : ¬ ("module".toList <+: t)) :
    removeDashModule ('-' :: t) = '-' :: removeDashModule t := by
  conv_lhs => rw [removeDashModule.eq_def]
  split
  · next rest heq =>
    exfalso
    apply h
    have ht : t = 'm' :: 'o' :: 'd' :: 'u' :: 'l' :: 'e' :: rest :=
      (List.cons_eq_cons.1 heq).2
    exact ⟨rest, by rw [ht]; rfl⟩
  · next c' rest heq =>
    rw [(List.cons_eq_cons.1 heq).1, (List.cons_eq_cons.1 heq).2]
  · next heq => exact absurd heq (List.cons_ne_nil _ _)

theorem removeDashModule_no_dash (xs ys : List Char) (h : ∀ c ∈ xs, c ≠ '-') :
    removeDashModule (xs ++ ys) = xs ++ removeDashModule ys := by
  induction xs with
  | nil => rfl
  | cons c xs' ih =>
    rw [List.cons_append,
      removeDashModule_cons_ne c _ (h c (List.mem_cons_self _ _)),
      ih (fun x hx => h x (List.mem_cons_of_mem _ hx))]
    rfl

theorem module_not_prefix_append (lw rest : List Char)
    (hword : ¬ ("module".toList <+: lw))
    (hnodash : ∀ c ∈ lw, c ≠ '-') :
    ¬ ("module".toList <+: (lw ++ '-' :: rest)) := by
  intro hpre
  obtain ⟨z, hz⟩ := hpre
  by_cases h6 : 6 ≤ lw.length
  · apply hword
    have h1 : ("module".toList ++ z).take 6 = (lw ++ '-' :: rest).take 6 := by
      rw [hz]
    rw [List.take_append_of_le_length h6] at h1
    have h2 : ("module".toList ++ z).take 6 = "module".toList := by
      have := List.take_left ("module".toList) z
      simpa using this
    rw [h2] at h1
    rw [h1]
    exact List.take_prefix 6 lw
  · push_neg at h6
    have hget : ("module".toList ++ z).get? lw.length = some '-' := by
      rw [hz, List.get?_append_right (Nat.le_refl _)]
      simp
    rw [List.get?_append (by simpa using h6)] at hget
    have : '-' ∈ "module".toList := List.get?_mem hget
    exact absurd this (by decide)

/-- The lowered form of the kebab string, with the trailing `-module` removed:
only the final occurrence matches, since no later word's lowered form begins
with `module`. -/
theorem removeDashModule_intercalate :
    ∀ lws : List (List Char), lws ≠ [] →
      (∀ lw ∈ lws, ∀ c ∈ lw, c ≠ '-') →
      (∀ lw ∈ lws.tail, ¬ ("module".toList <+: lw)) →
      removeDashModule (intercalateDash lws ++ '-' :: "module".toList) =
        intercalateDash lws := by
  intro lws
  induction lws with
  | nil => intro h _ _; exact absurd rfl h
  | cons lw lws' ih =>
    intro _ hnodash hnomod
    cases lws' with
    | nil =>
      show removeDashModule (lw ++ '-' :: "module".toList) = lw
      rw [removeDashModule_no_dash lw _ (hnodash lw (List.mem_cons_self _ _)),
        show removeDashModule ('-' :: "module".toList) = [] from by decide,
        List.append_nil]
    | cons lw2 lws'' =>
      have hTex : ∃ s, intercalateDash (lw2 :: lws'') ++ '-' :: "module".toList =
          lw2 ++ '-' :: s := by
        cases lws'' with
        | nil => exact ⟨"module".toList, rfl⟩
        | cons w3 ls3 =>
          refine ⟨intercalateDash (w3 :: ls3) ++ '-' :: "module".toList, ?_⟩
          rw [intercalateDash_cons _ _ (by simp), List.append_assoc]
          rfl
      obtain ⟨s, hs⟩ := hTex
      have hnp : ¬ ("module".toList <+:
          (intercalateDash (lw2 :: lws'') ++ '-' :: "module".toList)) := by
        rw [hs]
        exact module_not_prefix_append lw2 s
          (hnomod lw2 (List.mem_cons_self _ _))
          (hnodash lw2 (List.mem_cons_of_mem _ (List.mem_cons_self _ _)))
      have hshape : intercalateDash (lw :: lw2 :: lws'') ++ '-' :: "module".toList =
          lw ++ '-' :: (intercalateDash (lw2 :: lws'') ++ '-' :: "module".toList) := by
        rw [intercalateDash_cons _ _ (by simp), List.append_assoc]
        rfl
      rw [hshape,
        removeDashModule_no_dash lw _ (hnodash lw (List.mem_cons_self _ _)),
        removeDashModule_dash_not_module _ hnp,
        ih (by simp) (fun x hx => hnodash x (List.mem_cons_of_mem _ hx))
          (fun x hx => hnomod x (List.mem_cons_of_mem _ hx))]
      exact (intercalateDash_cons lw (lw2 :: lws'') (by simp)).symm

/-! ### Splitting and capitalisation -/

theorem splitOnDash_dash (ys : List Char) :
    splitOnDash ('-' :: ys) = [] :: splitOnDash ys := by
  rw [splitOnDash]
  simp

theorem splitOnDash_no_dash (xs : List Char) (h : ∀ c ∈ xs, c ≠ '-') :
    ∀ ys p ps, splitOnDash ys = p :: ps →
      splitOnDash (xs ++ ys) = (xs ++ p) :: ps := by
  induction xs with
  | nil =>
    intro ys p ps hy
    simpa using hy
  | cons c xs' ih =>
    intro ys p ps hy
    rw [List.cons_append, splitOnDash]
    rw [ih (fun x hx => h x (List.mem_cons_of_mem _ hx)) ys p ps hy]
    rw [if_neg (h c (List.mem_cons_self _ _))]
    rfl

theorem intercalateDash_append_singleton :
    ∀ L : List (List Char), L ≠ [] → ∀ w,
      intercalateDash (L ++ [w]) = intercalateDash L ++ '-' :: w := by
  intro L
  induction L with
  | nil => intro h _; exact absurd rfl h
  | cons x L' ih =>
    intro _ w
    cases L' with
    | nil => rfl
    | cons y L'' =>
      rw [List.cons_append, intercalateDash_cons _ _ (by simp),
        intercalateDash_cons _ _ (by simp), ih (by simp) w, List.append_assoc]
      rfl

theorem splitOnDash_intercalate :
    ∀ lws : List (List Char), lws ≠ [] →
      (∀ lw ∈ lws, ∀ c ∈ lw, c ≠ '-') →
      splitOnDash (intercalateDash lws ++ '-' :: "module".toList) =
        lws ++ ["module".toList] := by
  intro lws
  induction lws with
  | nil => intro h _; exact absurd rfl h
  | cons lw lws' ih =>
    intro _ hnodash
    cases lws' with
    | nil =>
      show splitOnDash (lw ++ '-' :: "module".toList) = [lw, "module".toList]
      rw [splitOnDash_no_dash lw (hnodash lw (List.mem_cons_self _ _))
        ('-' :: "module".toList) [] ["module".toList] (by decide),
        List.append_nil]
    | cons lw2 lws'' =>
      have hshape : intercalateDash (lw :: lw2 :: lws'') ++ '-' :: "module".toList =
          lw ++ '-' :: (intercalateDash (lw2 :: lws'') ++ '-' :: "module".toList) := by
        rw [intercalateDash_cons _ _ (by simp), List.append_assoc]
        rfl
      rw [hshape,
        splitOnDash_no_dash lw (hnodash lw (List.mem_cons_self _ _)) _ []
          ((lw2 :: lws'') ++ ["module".toList])
          (by
            rw [splitOnDash_dash,
              ih (by simp) (fun x hx => hnodash x (List.mem_cons_of_mem _ hx))]),
        List.append_nil]
      rfl

/-- `capitalizePart` on a non-empty part, as a total function. -/
def capFun : List Char → List Char
  | [] => []
  | c :: rest => jsToUpper c :: rest.map jsToLower

theorem capitalizePart_eq_capFun (x : List Char) (hx : x ≠ []) :
    capitalizePart x = some (capFun x) := by
  cases x with
  | nil => exact absurd rfl hx
  | cons c rest => rfl

theorem capFun_lowered_word {u : Char} (hu : isUpperAlpha u = true)
    {ls : List Char} (hlow : ∀ c ∈ ls, isLowerAlpha c = true) :
    capFun ((u :: ls).map jsToLower) = u :: ls := by
  rw [List.map_cons, capFun, jsToUpper_jsToLower_upper hu]
  have h1 : (ls.map jsToLower).map jsToLower = ls.map jsToLower := by
    rw [List.map_map]
    apply List.map_congr_left
    intro c hc
    rw [Function.comp_apply, jsToLower_of_lower (hlow c hc),
      jsToLower_of_lower (hlow c hc)]
  have h2 : ls.map jsToLower = ls := by
    have h3 : ls.map jsToLower = ls.map (fun c => c) :=
      List.map_congr_left (fun c hc => jsToLower_of_lower (hlow c hc))
    rw [h3]
    simp
  rw [h1, h2]

theorem mapM_option_of_forall {α β : Type} (f : α → Option β) (g : α → β) :
    ∀ l : List α, (∀ x ∈ l, f x = some (g x)) → l.mapM f = some (l.map g) := by
  intro l
  induction l with
  | nil => intro _; rfl
  | cons x xs ih =>
    intro h
    rw [List.mapM_cons, h x (List.mem_cons_self _ _),
      ih (fun y hy => h y (List.mem_cons_of_mem _ hy)), List.map_cons]
    rfl

theorem map_tail {α β : Type} (f : α → β) (l : List α) :
    (l.map f).tail = l.tail.map f := by
  cases l with
  | nil => rfl
  | cons x xs => rfl

/-- C10 (amended): for a directory name made of capitalized alphabetic words
`W₁ … Wₖ` followed by the final word `Module` — each `Wᵢ` one uppercase ASCII
letter followed by at least one lowercase letter, and no `Wᵢ` beyond the first
lowercasing to something that begins with `module` — `getModules` maps the
name to the hyphen-joined lowercased words (the kebab-case name with the
`-module` suffix removed), and `getModuleConfig` reconstructs exactly the
original directory name from that module name. -/
theorem claim_C10 (ws : List (List Char)) (hne : ws ≠ [])
    (hgood : ∀ w ∈ ws, GoodWord w)
    (hnomod : ∀ w ∈ ws.tail, ¬ ("module".toList <+: w.map jsToLower)) :
    moduleNameOfDir (ws.flatten ++ "Module".toList) =
      intercalateDash (ws.map (List.map jsToLower)) ∧
    moduleFolderOfName (moduleNameOfDir (ws.flatten ++ "Module".toList)) =
      some (ws.flatten ++ "Module".toList) := by
  have hlwsne : ws.map (List.map jsToLower) ≠ [] := by
    intro h
    exact hne (List.map_eq_nil_iff.1 h)
  have hnodash : ∀ lw ∈ ws.map (List.map jsToLower), ∀ c ∈ lw, c ≠ '-' := by
    intro lw hlw c hc
    obtain ⟨w, hw, rfl⟩ := List.mem_map.1 hlw
    obtain ⟨u, ls, rfl, hu, _, hlow⟩ := hgood w hw
    rw [List.map_cons] at hc
    rcases List.mem_cons.1 hc with rfl | hc'
    · exact ne_dash_of_lower (isLower_jsToLower_upper hu)
    · obtain ⟨c0, hc0, rfl⟩ := List.mem_map.1 hc'
      rw [jsToLower_of_lower (hlow c0 hc0)]
      exact ne_dash_of_lower (hlow c0 hc0)
  have hnomod' : ∀ lw ∈ (ws.map (List.map jsToLower)).tail,
      ¬ ("module".toList <+: lw) := by
    intro lw hlw
    rw [map_tail] at hlw
    obtain ⟨w, hw, rfl⟩ := List.mem_map.1 hlw
    exact hnomod w hw
  have hname : moduleNameOfDir (ws.flatten ++ "Module".toList) =
      intercalateDash (ws.map (List.map jsToLower)) := by
    rw [moduleNameOfDir, camelToHyphen_flatten ws hgood, map_jsToLower_intercalate,
      List.map_append]
    rw [show (["Module".toList].map (List.map jsToLower)) = ["module".toList]
      from by decide]
    rw [intercalateDash_append_singleton _ hlwsne]
    exact removeDashModule_intercalate _ hlwsne hnodash hnomod'
  refine ⟨hname, ?_⟩
  rw [hname, moduleFolderOfName]
  rw [splitOnDash_intercalate _ hlwsne hnodash]
  have hcap : ∀ x ∈ ws.map (List.map jsToLower) ++ ["module".toList],
      capitalizePart x = some (capFun x) := by
    intro x hx
    rcases List.mem_append.1 hx with hx' | hx'
    · obtain ⟨w, hw, rfl⟩ := List.mem_map.1 hx'
      obtain ⟨u, ls, rfl, _, _, _⟩ := hgood w hw
      rw [List.map_cons]
      exact capitalizePart_eq_capFun _ (by simp)
    · rw [List.mem_singleton.1 hx']
      rfl
  rw [mapM_option_of_forall capitalizePart capFun _ hcap]
  have hmapcap : (ws.map (List.map jsToLower) ++ ["module".toList]).map capFun =
      ws ++ ["Module".toList] := by
    rw [List.map_append, List.map_map,
      show (["module".toList].map capFun) = ["Module".toList] from by decide]
    have hmw : List.map (capFun ∘ List.map jsToLower) ws =
        List.map (fun w => w) ws :=
      List.map_congr_left (fun w hw => by
        obtain ⟨u, ls, rfl, hu, _, hlow⟩ := hgood w hw
        rw [Function.comp_apply]
        exact capFun_lowered_word hu hlow)
    rw [hmw]
    simp
  rw [hmapcap]
  show some (ws ++ ["Module".toList]).flatten = some (ws.flatten ++ "Module".toList)
  rw [List.flatten_append]
  simp

/-- C10 counterexample: the directory name `LinkModuleDetectionModule` is a
CamelCase sequence of capitalized alphabetic words ending in `Module`, but the
global `-module` removal also eats the interior `Module` word, so the round
trip reconstructs `LinkDetectionModule`, not the original name. -/
theorem claim_C10_counterexample :
    moduleNameOfDir ("LinkModuleDetectionModule".toList) = "link-detection".toList ∧
    moduleFolderOfName (moduleNameOfDir ("LinkModuleDetectionModule".toList)) =
      some ("LinkDetectionModule".toList) ∧
    ("LinkDetectionModule".toList) ≠ ("LinkModuleDetectionModule".toList) := by
  refine ⟨by decide, by decide, by decide⟩

theorem claim_C10_witness :
    moduleNameOfDir ("LinkDetectionModule".toList) = "link-detection".toList ∧
    moduleFolderOfName (moduleNameOfDir ("LinkDetectionModule".toList)) =
      some ("LinkDetectionModule".toList) := by
  have h := claim_C10 ["Link".toList, "Detection".toList] (by simp)
    (by
      intro w hw
      rcases List.mem_cons.1 hw with rfl | hw'
      · exact ⟨'L', "ink".toList, by decide, by decide, by decide, by decide⟩
      · rcases List.mem_cons.1 hw' with rfl | hw''
        · exact ⟨'D', "etection".toList, by decide, by decide, by decide, by decide⟩
        · exact absurd hw'' (List.not_mem_nil w))
    (by
      intro w hw
      rw [List.mem_singleton.1 hw]
      decide)
  have hdir : ("LinkDetectionModule".toList) =
      (["Link".toList, "Detection".toList].flatten ++ "Module".toList) := by decide
  constructor
  · rw [hdir]
    exact h.1.trans (by decide)
  · rw [hdir]
    exact h.2

end Parsr
